import Mathlib

/-!
Verification of the nonsense-injection subsystem of ThisNewsNow
(`src/agents/nonsense.py`, with its caller `src/agents/writer.py` and the
`inject_heavy_nonsense` entry point used by `src/main.py`).

Shallow embedding conventions:
* Python strings are `List Char`; text operations are modelled at ASCII level
  (Python's `\s`, `\w`, `str.lower` are Unicode-aware; the scripts and the
  Markov corpus are ASCII, so the ASCII fragment is modelled).
* Randomness is passed in explicitly: each `random.random()` call is a
  rational draw parameter, each `random.randint(a, b)` is a parameter or an
  oracle function of its two arguments.
* Floating point weights are modelled by rationals; the temperature transform
  `w ** (1/T)` of `_pick_weighted` / `_pick_from_options` is an abstract
  function parameter `adjust : ℚ → ℚ` (the identity at temperature 1.0),
  so theorems quantifying over `adjust` cover every temperature.
* Python exceptions (`IndexError` on `items[-1]` / `words[-1]`, a failed
  model load) are modelled by `Option`/`Except` error results.
-/

/-- ASCII whitespace, as matched by Python's `\s` / `str.split()` on ASCII text. -/
def pyWS (c : Char) : Bool :=
  c = ' ' || c = '\t' || c = '\n' || c = '\r' || c = '\x0b' || c = '\x0c'

/-- Characters of a directive tag: the class `[A-Z_-]` of the tokenizing
regex in `inject_nonsense`. -/
def isTagChar (c : Char) : Bool :=
  ('A' ≤ c && c ≤ 'Z') || c = '_' || c = '-'

/-- Predicate for characters that are not `]`, the class `[^\]]`. -/
def notRB (c : Char) : Bool :=
  c ≠ ']'

/-- Match the directive alternative `\[[A-Z_-]+:\s*[^\]]+\]` of the tokenizing
regex `re.findall(r'\[[A-Z_-]+:\s*[^\]]+\]|\S+', ...)` at the head of the
input.  Since `\s*[^\]]+` matches exactly the nonempty `]`-free strings
(every `\s` character is itself `]`-free), a successful match consumes `[`,
a nonempty run of tag characters, `:`, then everything up to and including
the first `]`, provided at least one character sits between `:` and that
`]`.  Returns the matched span and the remainder of the input. -/
def matchDirective : List Char → Option (List Char × List Char)
  | '[' :: cs =>
    match cs.dropWhile isTagChar with
    | ':' :: v =>
      if cs.takeWhile isTagChar = [] then none
      else
        match v.dropWhile notRB with
        | ']' :: rest =>
          if v.takeWhile notRB = [] then none
          else some ('[' :: cs.takeWhile isTagChar ++ ':' :: v.takeWhile notRB ++ [']'], rest)
        | _ => none
    | _ => none
  | _ => none

theorem dropWhile_head_false {p : Char → Bool} {l t : List Char} {c : Char}
    (h : l.dropWhile p = c :: t) : p c = false := by
  induction l with
  | nil => simp at h
  | cons x xs ih =>
    by_cases hx : p x
    · rw [List.dropWhile_cons_of_pos hx] at h
      exact ih h
    · rw [List.dropWhile_cons_of_neg hx] at h
      cases h
      simpa using hx

theorem span_append {p : Char → Bool} {a : List Char} (b : List Char)
    (h : ∀ c ∈ a, p c = true) :
    (a ++ b).takeWhile p = a ++ b.takeWhile p ∧ (a ++ b).dropWhile p = b.dropWhile p := by
  induction a with
  | nil => simp
  | cons x xs ih =>
    have hx : p x = true := h x (by simp)
    have ih' := ih (fun c hc => h c (by simp [hc]))
    constructor
    · simpa [List.takeWhile_cons_of_pos hx] using ih'.1
    · simpa [List.dropWhile_cons_of_pos hx] using ih'.2

theorem span_stop {p : Char → Bool} {a : List Char} (b : List Char)
    (h : ∀ c ∈ a, p c = true)
    (hb : b = [] ∨ ∃ x xs, b = x :: xs ∧ p x = false) :
    (a ++ b).takeWhile p = a ∧ (a ++ b).dropWhile p = b := by
  rcases span_append b h with ⟨h1, h2⟩
  rcases hb with rfl | ⟨x, xs, rfl, hx⟩
  · exact ⟨by simpa using h1, by simpa using h2⟩
  · rw [h1, h2, List.takeWhile_cons_of_neg (by simp [hx]),
      List.dropWhile_cons_of_neg (by simp [hx])]
    simp

/-- Characterization of a successful directive match: the span is
`[` + nonempty tag-character run + `:` + nonempty `]`-free content + `]`,
and the remainder is whatever follows. -/
theorem matchDirective_some_iff {s u rest : List Char} :
    matchDirective s = some (u, rest) ↔
      ∃ r c_, r ≠ [] ∧ (∀ ch ∈ r, isTagChar ch = true) ∧ c_ ≠ [] ∧
        (∀ ch ∈ c_, notRB ch = true) ∧
        u = '[' :: r ++ ':' :: c_ ++ [']'] ∧ s = u ++ rest := by
  constructor
  · intro h
    unfold matchDirective at h
    split at h
    case h_2 => exact absurd h (by simp)
    case h_1 cs =>
      split at h
      case h_2 => exact absurd h (by simp)
      case h_1 v hdrop =>
        split at h
        case isTrue => exact absurd h (by simp)
        case isFalse hre =>
          split at h
          case h_2 => exact absurd h (by simp)
          case h_1 rest' hdv =>
            split at h
            case isTrue => exact absurd h (by simp)
            case isFalse hce =>
              simp only [Option.some.injEq, Prod.mk.injEq] at h
              obtain ⟨hu, hrest⟩ := h
              refine ⟨cs.takeWhile isTagChar, v.takeWhile notRB, hre,
                fun ch hch => List.mem_takeWhile_imp hch, hce,
                fun ch hch => List.mem_takeWhile_imp hch, hu.symm, ?_⟩
              have hcs : cs = cs.takeWhile isTagChar ++ ':' :: v := by
                conv_lhs => rw [← List.takeWhile_append_dropWhile (p := isTagChar) (l := cs)]
                rw [hdrop]
              have hv : v = v.takeWhile notRB ++ ']' :: rest' := by
                conv_lhs => rw [← List.takeWhile_append_dropWhile (p := notRB) (l := v)]
                rw [hdv]
              subst hrest
              rw [← hu]
              conv_lhs => rw [hcs, hv]
              simp
  · rintro ⟨r, c_, hre, hrtag, hce, hcrb, rfl, rfl⟩
    have hsplit1 : (r ++ ':' :: (c_ ++ ']' :: rest)).takeWhile isTagChar = r ∧
        (r ++ ':' :: (c_ ++ ']' :: rest)).dropWhile isTagChar = ':' :: (c_ ++ ']' :: rest) := by
      refine span_stop _ hrtag (Or.inr ⟨':', _, rfl, by simp [isTagChar]⟩)
    have hsplit2 : (c_ ++ ']' :: rest).takeWhile notRB = c_ ∧
        (c_ ++ ']' :: rest).dropWhile notRB = ']' :: rest := by
      refine span_stop _ hcrb (Or.inr ⟨']', _, rfl, by simp [notRB]⟩)
    have e1 : ('[' :: r ++ ':' :: c_ ++ [']']) ++ rest =
        '[' :: (r ++ ':' :: (c_ ++ ']' :: rest)) := by
      simp
    rw [e1]
    simp only [matchDirective]
    rw [hsplit1.2]
    simp only [hsplit1.1, hre, if_false]
    rw [hsplit2.2]
    simp only [hsplit2.1, hce, if_false]

theorem matchDirective_length {s u rest : List Char} (h : matchDirective s = some (u, rest)) :
    s.length = u.length + rest.length ∧ 0 < u.length := by
  rcases matchDirective_some_iff.mp h with ⟨r, c_, _, _, _, _, rfl, rfl⟩
  constructor
  · simp
    omega
  · simp

/-- Negation of `pyWS`: the class `\S` of the tokenizing regex. -/
def notWS (c : Char) : Bool :=
  !pyWS c

theorem length_dropWhile_le (p : Char → Bool) (l : List Char) :
    (l.dropWhile p).length ≤ l.length := by
  induction l with
  | nil => simp
  | cons x xs ih =>
    by_cases hx : p x
    · rw [List.dropWhile_cons_of_pos hx]
      simp only [List.length_cons]
      omega
    · rw [List.dropWhile_cons_of_neg hx]

theorem mem_of_getLast?_eq {α : Type} {l : List α} {a : α}
    (h : l.getLast? = some a) : a ∈ l := by
  induction l with
  | nil => simp at h
  | cons x xs ih =>
    cases xs with
    | nil =>
      simp only [List.getLast?_singleton, Option.some.injEq] at h
      simp [h]
    | cons y ys =>
      rw [List.getLast?_cons_cons] at h
      exact List.mem_cons_of_mem x (ih h)

/-- Embedding of `re.findall(r'\[[A-Z_-]+:\s*[^\]]+\]|\S+', script_text)`
(src/agents/nonsense.py line 174): scan left to right; at each position try
the directive alternative first, then a maximal run of non-whitespace;
on failure advance one character. -/
def findTokens (s : List Char) : List (List Char) :=
  match s with
  | [] => []
  | c :: cs =>
    match h : matchDirective (c :: cs) with
    | some (tok, rest) => tok :: findTokens rest
    | none =>
      if pyWS c then findTokens cs
      else (c :: cs.takeWhile notWS) :: findTokens (cs.dropWhile notWS)
termination_by s.length
decreasing_by
  · have h1 := (matchDirective_length h).1
    have h2 := (matchDirective_length h).2
    simp only [List.length_cons] at h1 ⊢
    omega
  · simp
  · have := length_dropWhile_le notWS cs
    simp only [List.length_cons]
    omega

/-- Embedding of Python `str.split()` (no argument): split on runs of
whitespace, dropping empty pieces. -/
def pySplit (s : List Char) : List (List Char) :=
  match s with
  | [] => []
  | c :: cs =>
    if pyWS c then pySplit cs
    else (c :: cs.takeWhile notWS) :: pySplit (cs.dropWhile notWS)
termination_by s.length
decreasing_by
  · simp
  · have := length_dropWhile_le notWS cs
    simp only [List.length_cons]
    omega

/-- Embedding of `" ".join(tokens)` (src/agents/nonsense.py line 198). -/
def joinSpace : List (List Char) → List Char
  | [] => []
  | [t] => t
  | t :: u :: ts => t ++ ' ' :: joinSpace (u :: ts)

/-- The part of a space-join contributed by the tokens after the first:
empty for no tokens, otherwise a space followed by the join. -/
def sepJoin : List (List Char) → List Char
  | [] => []
  | t :: ts => ' ' :: joinSpace (t :: ts)

theorem joinSpace_cons (t : List Char) (ts : List (List Char)) :
    joinSpace (t :: ts) = t ++ sepJoin ts := by
  cases ts <;> simp [joinSpace, sepJoin]

/-- Indices of the spoken (non-tag) tokens, starting the count at `i`:
embedding of `[i for i, t in enumerate(tokens) if not t.startswith('[')]`
(src/agents/nonsense.py line 177). -/
def spokenIdxFrom : ℕ → List (List Char) → List ℕ
  | _, [] => []
  | i, t :: ts =>
    if t.head? = some '[' then spokenIdxFrom (i + 1) ts
    else i :: spokenIdxFrom (i + 1) ts

/-- Roulette-wheel index selection: subtract weights in order, return the
first index at which the running remainder drops to `≤ 0`; `none` when the
subtraction loop selects nothing.  This is the loop shared by
`_pick_weighted` and `_pick_from_options`. -/
def wheelIdx : List ℚ → ℚ → Option ℕ
  | [], _ => none
  | w :: ws, r => if r - w ≤ 0 then some 0 else (wheelIdx ws (r - w)).map (· + 1)

/-- Embedding of `_pick_weighted(items, weights, temperature)`
(src/agents/nonsense.py lines 54-66).  `adjust` is the temperature
transform applied to each weight (`w ** (1/temperature)`, the identity at
temperature 1.0) and `r01` the `random.random()` draw, so the Python `r`
is `r01 * total`.  `none` models the `IndexError` Python raises on
`items[-1]` (empty items) or on `items[i]` with `i` past the end. -/
def _pick_weighted {α : Type} (items : List α) (weights : List ℚ)
    (adjust : ℚ → ℚ) (r01 : ℚ) : Option α :=
  match wheelIdx (weights.map adjust) (r01 * (weights.map adjust).sum) with
  | some i => items[i]?
  | none => items.getLast?

/-- Embedding of `_pick_from_options(options, temperature)`
(src/agents/nonsense.py lines 37-51): pick a word from `[word, frequency]`
pairs, returning `None` for an empty options list. -/
def _pick_from_options (options : List (List Char × ℚ))
    (adjust : ℚ → ℚ) (r01 : ℚ) : Option (List Char) :=
  if options.isEmpty then none
  else
    match wheelIdx (options.map (fun o => adjust o.2))
        (r01 * (options.map (fun o => adjust o.2)).sum) with
    | some i => (options[i]?).map Prod.fst
    | none => options.getLast?.map Prod.fst

theorem wheelIdx_lt {ws : List ℚ} {r : ℚ} {i : ℕ} (h : wheelIdx ws r = some i) :
    i < ws.length := by
  induction ws generalizing r i with
  | nil => simp [wheelIdx] at h
  | cons w ws ih =>
    simp only [wheelIdx] at h
    split at h
    · cases h
      simp
    · match hrec : wheelIdx ws (r - w) with
      | none => rw [hrec] at h; simp at h
      | some j =>
        rw [hrec] at h
        simp only [Option.map_some', Option.some.injEq] at h
        subst h
        have := ih hrec
        simp only [List.length_cons]
        omega

theorem pick_weighted_mem {α : Type} {items : List α} (weights : List ℚ)
    (adjust : ℚ → ℚ) (r01 : ℚ) (hne : items ≠ [])
    (hlen : weights.length = items.length) :
    ∃ a, _pick_weighted items weights adjust r01 = some a ∧ a ∈ items := by
  unfold _pick_weighted
  rcases hw : wheelIdx (weights.map adjust) (r01 * (weights.map adjust).sum) with _ | i
  · rcases hl : items.getLast? with _ | a
    · exact absurd (List.getLast?_eq_none_iff.mp hl) hne
    · exact ⟨a, rfl, mem_of_getLast?_eq hl⟩
  · have hi : i < items.length := by
      have := wheelIdx_lt hw
      simpa [hlen] using this
    refine ⟨items[i], ?_, List.getElem_mem hi⟩
    simp [List.getElem?_eq_getElem hi]

/-- A token is an exact directive: the directive pattern matches it in full. -/
def IsDirTok (t : List Char) : Prop :=
  matchDirective t = some (t, [])

/-- A plain spoken token: nonempty, whitespace-free, not starting with `[`. -/
def PlainTok (t : List Char) : Prop :=
  t ≠ [] ∧ (∀ c ∈ t, pyWS c = false) ∧ t.head? ≠ some '['

/-- A bracket-headed token that is not an exact directive: nonempty,
whitespace-free, starting with `[`. -/
def BadBrTok (t : List Char) : Prop :=
  t ≠ [] ∧ (∀ c ∈ t, pyWS c = false) ∧ t.head? = some '['

/-- A list that is empty or starts with a whitespace character: the shape of
every continuation the scanner leaves after a maximal non-whitespace run,
and of every `sepJoin`. -/
def WsHead (x : List Char) : Prop :=
  x = [] ∨ ∃ y ys, x = y :: ys ∧ pyWS y = true

/-- Invariant satisfied by the token list the tokenizer produces, strong
enough to re-tokenize the space-join and stable under replacing plain
tokens: every token is an exact directive, a plain spoken token, or a
bracket-headed fragment on which the directive pattern fails even in its
re-joined context. -/
def OkToks : List (List Char) → Prop
  | [] => True
  | t :: rest =>
    (IsDirTok t ∨ PlainTok t ∨
      (BadBrTok t ∧ matchDirective (t ++ sepJoin rest) = none)) ∧ OkToks rest

theorem isDirTok_ctx {t : List Char} (h : IsDirTok t) (x : List Char) :
    matchDirective (t ++ x) = some (t, x) := by
  rcases matchDirective_some_iff.mp h with ⟨r, c_, hr, hrt, hc, hcr, hu, _⟩
  exact matchDirective_some_iff.mpr ⟨r, c_, hr, hrt, hc, hcr, hu, by rw [hu]⟩

theorem matchDirective_head {s u rest : List Char}
    (h : matchDirective s = some (u, rest)) : s.head? = some '[' := by
  rcases matchDirective_some_iff.mp h with ⟨r, c_, _, _, _, _, rfl, rfl⟩
  simp

theorem matchDirective_none_of_head {s : List Char} (h : s.head? ≠ some '[') :
    matchDirective s = none := by
  rcases hm : matchDirective s with _ | ⟨u, rest⟩
  · rfl
  · exact absurd (matchDirective_head hm) h

theorem isDirTok_of_match {s u rest : List Char}
    (h : matchDirective s = some (u, rest)) : IsDirTok u := by
  rcases matchDirective_some_iff.mp h with ⟨r, c_, hr, hrt, hc, hcr, rfl, _⟩
  exact matchDirective_some_iff.mpr ⟨r, c_, hr, hrt, hc, hcr, rfl, by simp⟩

theorem findTokens_nil : findTokens [] = [] := by
  simp [findTokens]

theorem findTokens_match {c : Char} {cs u r : List Char}
    (h : matchDirective (c :: cs) = some (u, r)) :
    findTokens (c :: cs) = u :: findTokens r := by
  rw [findTokens]
  split
  · rename_i u' r' h'
    rw [h] at h'
    cases h'
    rfl
  · rename_i h'
    rw [h] at h'
    cases h'

theorem findTokens_ws {c : Char} {cs : List Char}
    (hm : matchDirective (c :: cs) = none) (hw : pyWS c = true) :
    findTokens (c :: cs) = findTokens cs := by
  rw [findTokens]
  split
  · rename_i u' r' h'
    rw [hm] at h'
    cases h'
  · simp [hw]

theorem findTokens_word {c : Char} {cs : List Char}
    (hm : matchDirective (c :: cs) = none) (hw : pyWS c = false) :
    findTokens (c :: cs) =
      (c :: cs.takeWhile notWS) :: findTokens (cs.dropWhile notWS) := by
  rw [findTokens]
  split
  · rename_i u' r' h'
    rw [hm] at h'
    cases h'
  · simp [hw]

theorem mem_joinSpace {c : Char} {ts : List (List Char)}
    (h : c ∈ joinSpace ts) : c = ' ' ∨ ∃ t ∈ ts, c ∈ t := by
  induction ts with
  | nil => simp [joinSpace] at h
  | cons t rest ih =>
    rw [joinSpace_cons] at h
    rcases List.mem_append.mp h with h1 | h2
    · exact Or.inr ⟨t, by simp, h1⟩
    · cases rest with
      | nil => simp [sepJoin] at h2
      | cons u us =>
        simp only [sepJoin, List.mem_cons] at h2
        rcases h2 with rfl | h2
        · exact Or.inl rfl
        · rcases ih h2 with h3 | ⟨t', ht', hc⟩
          · exact Or.inl h3
          · exact Or.inr ⟨t', by simp [ht'], hc⟩

theorem mem_sepJoin {c : Char} {ts : List (List Char)}
    (h : c ∈ sepJoin ts) : c = ' ' ∨ ∃ t ∈ ts, c ∈ t := by
  cases ts with
  | nil => simp [sepJoin] at h
  | cons t rest =>
    simp only [sepJoin, List.mem_cons] at h
    rcases h with rfl | h
    · exact Or.inl rfl
    · exact mem_joinSpace h

theorem mem_joinSpace_of_mem {c : Char} {t : List Char} {ts : List (List Char)}
    (ht : t ∈ ts) (hc : c ∈ t) : c ∈ joinSpace ts := by
  induction ts with
  | nil => simp at ht
  | cons u rest ih =>
    rw [joinSpace_cons]
    rcases List.mem_cons.mp ht with rfl | ht'
    · exact List.mem_append.mpr (Or.inl hc)
    · refine List.mem_append.mpr (Or.inr ?_)
      cases rest with
      | nil => simp at ht'
      | cons v vs => exact List.mem_cons_of_mem _ (ih ht')

theorem mem_sepJoin_of_mem {c : Char} {t : List Char} {ts : List (List Char)}
    (ht : t ∈ ts) (hc : c ∈ t) : c ∈ sepJoin ts := by
  cases ts with
  | nil => simp at ht
  | cons u us => exact List.mem_cons_of_mem _ (mem_joinSpace_of_mem ht hc)

/-- Every character of every token produced by the tokenizer occurs in the
input (tokens are spans of the input). -/
theorem findTokens_chars {s : List Char} :
    ∀ {t : List Char} {c : Char}, t ∈ findTokens s → c ∈ t → c ∈ s := by
  induction s using findTokens.induct with
  | case1 =>
    intro t c ht _
    rw [findTokens_nil] at ht
    simp at ht
  | case2 x xs tok r hm ih =>
    intro t c ht hc
    rw [findTokens_match hm] at ht
    rcases matchDirective_some_iff.mp hm with ⟨rr, cc, _, _, _, _, _, hs⟩
    rcases List.mem_cons.mp ht with rfl | ht'
    · rw [hs]
      exact List.mem_append.mpr (Or.inl hc)
    · rw [hs]
      exact List.mem_append.mpr (Or.inr (ih ht' hc))
  | case3 x xs hm hw ih =>
    intro t c ht hc
    rw [findTokens_ws hm (by simpa using hw)] at ht
    exact List.mem_cons_of_mem _ (ih ht hc)
  | case4 x xs hm hw ih =>
    intro t c ht hc
    rw [findTokens_word hm (by simpa using hw)] at ht
    rcases List.mem_cons.mp ht with rfl | ht'
    · rcases List.mem_cons.mp hc with rfl | hc'
      · simp
      · exact List.mem_cons_of_mem _ ((List.takeWhile_sublist notWS).mem hc')
    · exact List.mem_cons_of_mem _ ((List.dropWhile_sublist notWS).mem (ih ht' hc))

theorem ws_not_tag {c : Char} (h : pyWS c = true) : isTagChar c = false := by
  simp only [pyWS, Bool.or_eq_true, decide_eq_true_eq] at h
  rcases h with ((((rfl | rfl) | rfl) | rfl) | rfl) | rfl <;> decide

theorem rb_split {x : List Char} (h : ']' ∈ x) :
    ∃ x2, x.dropWhile notRB = ']' :: x2 ∧ x = x.takeWhile notRB ++ ']' :: x2 := by
  rcases hd : x.dropWhile notRB with _ | ⟨c, x2⟩
  · exfalso
    have : ∀ ch ∈ x, notRB ch = true := by
      intro ch hch
      have hx : x.takeWhile notRB = x := by
        conv_rhs => rw [← List.takeWhile_append_dropWhile (p := notRB) (l := x), hd]
        simp
      exact List.mem_takeWhile_imp (hx ▸ hch)
    have := this ']' h
    simp [notRB] at this
  · have hc : c = ']' := by
      have := dropWhile_head_false hd
      simpa [notRB] using this
    subst hc
    refine ⟨x2, rfl, ?_⟩
    conv_lhs => rw [← List.takeWhile_append_dropWhile (p := notRB) (l := x), hd]

/-- Monotone failure of the directive pattern across continuations: if the
pattern fails on a bracket-headed token followed by continuation `x`, it
also fails with continuation `y`, provided both continuations are empty or
whitespace-headed (as every scanner continuation and every re-join is) and
`y` brings no `]` that `x` lacks. -/
theorem matchDirective_mono {t x y : List Char}
    (htne : t ≠ []) (hh : t.head? = some '[')
    (hx : WsHead x) (hy : WsHead y)
    (hbr : ']' ∈ y → ']' ∈ x)
    (hnone : matchDirective (t ++ x) = none) :
    matchDirective (t ++ y) = none := by
  rcases hmy : matchDirective (t ++ y) with _ | ⟨u, rest⟩
  · rfl
  exfalso
  rcases matchDirective_some_iff.mp hmy with ⟨r, c_, hr, hrt, hc, hcr, hu, hs⟩
  rcases List.append_eq_append_iff.mp hs.symm with ⟨a, hta, hresta⟩ | ⟨a, hua, hya⟩
  · -- u stops inside t: t = u ++ a, so t ++ x also matches with remainder a ++ x
    have : matchDirective (t ++ x) = some (u, a ++ x) := by
      apply matchDirective_some_iff.mpr
      exact ⟨r, c_, hr, hrt, hc, hcr, hu, by rw [hta]; simp⟩
    rw [this] at hnone
    cases hnone
  · -- u extends beyond t (or equals it): u = t ++ a, y = a ++ rest
    rcases a with _ | ⟨a0, a'⟩
    · -- a = []: u = t is itself a full directive, so t ++ x matches too
      simp only [List.append_nil] at hua
      subst hua
      rw [matchDirective_some_iff.mpr ⟨r, c_, hr, hrt, hc, hcr, hu, rfl⟩] at hnone
      cases hnone
    · -- a nonempty: y starts with a character of the directive interior
      have hyhead : pyWS a0 = true := by
        rcases hy with rfl | ⟨y0, ys, hy0, hwy0⟩
        · simp at hya
        · rw [hya] at hy0
          simp only [List.cons_append] at hy0
          cases hy0
          exact hwy0
      -- decompose t as '[' :: t'
      rcases t with _ | ⟨t0, t'⟩
      · exact htne rfl
      have ht0 : t0 = '[' := by simpa using hh
      subst ht0
      have hta' : t' ++ (a0 :: a') = r ++ ':' :: (c_ ++ [']']) := by
        have h1 : ('[' :: t') ++ (a0 :: a') = '[' :: (r ++ ':' :: (c_ ++ [']'])) := by
          rw [← hua, hu]
          simp
        simp only [List.cons_append] at h1
        exact (List.cons_eq_cons.mp h1).2
      rcases List.append_eq_append_iff.mp hta'.symm with ⟨k, htk, hka⟩ | ⟨k, hrk, hka⟩
      · -- t' = r ++ k, ':' :: (c_ ++ [']']) = k ++ (a0 :: a')
        rcases k with _ | ⟨k0, k'⟩
        · -- k = []: a0 = ':'
          simp only [List.nil_append] at hka
          have : a0 = ':' := ((List.cons_eq_cons.mp hka).1).symm
          subst this
          simp [pyWS] at hyhead
        · have hk0 : k0 = ':' := by
            simp only [List.cons_append] at hka
            exact ((List.cons_eq_cons.mp hka).1).symm
          subst hk0
          have hma : c_ ++ [']'] = k' ++ (a0 :: a') := by
            simp only [List.cons_append] at hka
            exact (List.cons_eq_cons.mp hka).2
          -- k' is a ]-free chunk and a contains a ]
          have hkfree : ∀ ch ∈ k', notRB ch = true := by
            rcases List.append_eq_append_iff.mp hma with ⟨j, hkj, hja⟩ | ⟨j, hcj, hja⟩
            · -- k' = c_ ++ j with [']'] = j ++ (a0 :: a')
              rcases j with _ | ⟨j0, j'⟩
              · simp only [List.append_nil] at hkj
                intro ch hch
                exact hcr ch (hkj ▸ hch)
              · exfalso
                have hlen := congrArg List.length hja
                simp at hlen
            · -- c_ = k' ++ j
              intro ch hch
              exact hcr ch (hcj ▸ List.mem_append.mpr (Or.inl hch))
          have hrba : ']' ∈ a0 :: a' := by
            rcases List.append_eq_append_iff.mp hma with ⟨j, hkj, hja⟩ | ⟨j, hcj, hja⟩
            · rcases j with _ | ⟨j0, j'⟩
              · simp only [List.nil_append] at hja
                rw [← hja]
                simp
              · exfalso
                have hlen := congrArg List.length hja
                simp at hlen
            · rw [hja]
              simp
          have hrbx : ']' ∈ x := by
            apply hbr
            rw [hya]
            exact List.mem_append.mpr (Or.inl hrba)
          -- split x at its first ]
          rcases rb_split hrbx with ⟨x2, _, hxsplit⟩
          have hx1ne : x.takeWhile notRB ≠ [] := by
            rcases hx with rfl | ⟨x0, xs, rfl, hwx0⟩
            · simp at hrbx
            · have hx0 : notRB x0 = true := by
                simp only [notRB, ne_eq, decide_eq_true_eq]
                intro h0
                subst h0
                simp [pyWS] at hwx0
              rw [List.takeWhile_cons_of_pos hx0]
              simp
          have hx1free : ∀ ch ∈ x.takeWhile notRB, notRB ch = true :=
            fun ch hch => List.mem_takeWhile_imp hch
          -- assemble a directive match on t ++ x
          have hmatch : matchDirective (('[' :: t') ++ x) =
              some ('[' :: r ++ ':' :: (k' ++ x.takeWhile notRB) ++ [']'], x2) := by
            apply matchDirective_some_iff.mpr
            refine ⟨r, k' ++ x.takeWhile notRB, hr, hrt, by simp [hx1ne], ?_, rfl, ?_⟩
            · intro ch hch
              rcases List.mem_append.mp hch with h1 | h1
              · exact hkfree ch h1
              · exact hx1free ch h1
            · rw [htk]
              conv_lhs => rw [hxsplit]
              simp
          rw [hmatch] at hnone
          cases hnone
      · -- r = t' ++ k and a starts with a tag char or ':'
        rcases k with _ | ⟨k0, k'⟩
        · simp only [List.nil_append] at hka
          have : a0 = ':' := (List.cons_eq_cons.mp hka).1
          subst this
          simp [pyWS] at hyhead
        · have : a0 = k0 := by
            simp only [List.cons_append] at hka
            exact (List.cons_eq_cons.mp hka).1
          subst this
          have hk0tag : isTagChar a0 = true := by
            apply hrt
            rw [hrk]
            simp
          rw [ws_not_tag hyhead] at hk0tag
          cases hk0tag

theorem wsHead_sepJoin (ts : List (List Char)) : WsHead (sepJoin ts) := by
  cases ts with
  | nil => exact Or.inl rfl
  | cons t rest => exact Or.inr ⟨' ', _, rfl, by decide⟩

theorem wsHead_dropWhile (cs : List Char) : WsHead (cs.dropWhile notWS) := by
  rcases hd : cs.dropWhile notWS with _ | ⟨c, t⟩
  · exact Or.inl rfl
  · have := dropWhile_head_false hd
    exact Or.inr ⟨c, t, rfl, by simpa [notWS] using this⟩

theorem rb_sepJoin_findTokens {x : List Char}
    (h : ']' ∈ sepJoin (findTokens x)) : ']' ∈ x := by
  rcases mem_sepJoin h with h1 | ⟨t, ht, hc⟩
  · cases h1
  · exact findTokens_chars ht hc

/-- The scanner's output always satisfies the re-tokenization invariant. -/
theorem okToks_findTokens (s : List Char) : OkToks (findTokens s) := by
  induction s using findTokens.induct with
  | case1 =>
    rw [findTokens_nil]
    trivial
  | case2 x xs tok r hm ih =>
    rw [findTokens_match hm]
    exact ⟨Or.inl (isDirTok_of_match hm), ih⟩
  | case3 x xs hm hw ih =>
    rw [findTokens_ws hm (by simpa using hw)]
    exact ih
  | case4 x xs hm hw ih =>
    have hwx : pyWS x = false := by simpa using hw
    rw [findTokens_word hm hwx]
    refine ⟨?_, ih⟩
    have hwsfree : ∀ c ∈ x :: xs.takeWhile notWS, pyWS c = false := by
      intro c hc
      rcases List.mem_cons.mp hc with rfl | hc'
      · exact hwx
      · have := List.mem_takeWhile_imp hc'
        simpa [notWS] using this
    by_cases hbx : x = '['
    · subst hbx
      refine Or.inr (Or.inr ⟨⟨by simp, hwsfree, by simp⟩, ?_⟩)
      apply matchDirective_mono (x := xs.dropWhile notWS)
        (by simp) (by simp) (wsHead_dropWhile xs)
        (wsHead_sepJoin (findTokens (xs.dropWhile notWS)))
      · intro hb
        exact rb_sepJoin_findTokens hb
      · have hjoin : ('[' :: xs.takeWhile notWS) ++ xs.dropWhile notWS = '[' :: xs := by
          simp [List.takeWhile_append_dropWhile]
        rw [hjoin]
        exact hm
    · exact Or.inr (Or.inl ⟨by simp, hwsfree, by simp [hbx]⟩)

theorem span_tok {t' b : List Char} (hfree : ∀ c ∈ t', pyWS c = false)
    (hb : WsHead b) :
    (t' ++ b).takeWhile notWS = t' ∧ (t' ++ b).dropWhile notWS = b := by
  apply span_stop
  · intro c hc
    simp [notWS, hfree c hc]
  · rcases hb with rfl | ⟨y, ys, rfl, hy⟩
    · exact Or.inl rfl
    · exact Or.inr ⟨y, ys, rfl, by simp [notWS, hy]⟩

/-- Re-tokenization stability: tokenizing the space-join of a token list
that satisfies the invariant returns exactly that token list. -/
theorem findTokens_joinSpace {ts : List (List Char)} (h : OkToks ts) :
    findTokens (joinSpace ts) = ts := by
  induction ts with
  | nil => simp [joinSpace, findTokens_nil]
  | cons t rest ih =>
    obtain ⟨hcls, hrest⟩ := h
    have hrec : findTokens (sepJoin rest) = rest := by
      cases rest with
      | nil => simp [sepJoin, findTokens_nil]
      | cons u us =>
        have hm : matchDirective (' ' :: joinSpace (u :: us)) = none :=
          matchDirective_none_of_head (by simp)
        rw [sepJoin, findTokens_ws hm (by decide)]
        exact ih hrest
    rw [joinSpace_cons]
    rcases hcls with hdir | hplain | ⟨hbad, hdead⟩
    · obtain ⟨t0, t', rfl⟩ : ∃ t0 t', t = t0 :: t' := by
        rcases matchDirective_some_iff.mp hdir with ⟨r, c_, _, _, _, _, rfl, _⟩
        exact ⟨_, _, rfl⟩
      have hctx := isDirTok_ctx hdir (sepJoin rest)
      rw [List.cons_append] at hctx ⊢
      rw [findTokens_match hctx, hrec]
    · obtain ⟨hne, hfree, hhead⟩ := hplain
      obtain ⟨t0, t', rfl⟩ : ∃ t0 t', t = t0 :: t' := by
        cases t with
        | nil => exact absurd rfl hne
        | cons a b => exact ⟨_, _, rfl⟩
      have hm : matchDirective ((t0 :: t') ++ sepJoin rest) = none := by
        apply matchDirective_none_of_head
        simpa using hhead
      rw [List.cons_append] at hm ⊢
      have hsp := span_tok (fun c hc => hfree c (List.mem_cons_of_mem _ hc))
        (wsHead_sepJoin rest)
      rw [findTokens_word hm (hfree t0 (by simp)), hsp.1, hsp.2, hrec]
    · obtain ⟨hne, hfree, hhead⟩ := hbad
      obtain ⟨t0, t', rfl⟩ : ∃ t0 t', t = t0 :: t' := by
        cases t with
        | nil => exact absurd rfl hne
        | cons a b => exact ⟨_, _, rfl⟩
      have hm : matchDirective ((t0 :: t') ++ sepJoin rest) = none := hdead
      rw [List.cons_append] at hm ⊢
      have hsp := span_tok (fun c hc => hfree c (List.mem_cons_of_mem _ hc))
        (wsHead_sepJoin rest)
      rw [findTokens_word hm (hfree t0 (by simp)), hsp.1, hsp.2, hrec]

/-- A replacement word that keeps the token structure intact: nonempty and
free of whitespace and of both bracket characters.  Fragment words obtained
by splitting a generated fragment are automatically nonempty and
whitespace-free; bracket-freedom comes from the model words. -/
def GoodTok (w : List Char) : Prop :=
  w ≠ [] ∧ ∀ c ∈ w, pyWS c = false ∧ c ≠ '[' ∧ c ≠ ']'

/-- Embedding of the substitution loop of `inject_nonsense`
(src/agents/nonsense.py lines 193-196):
`for j, pos in enumerate(positions): if j < len(frag_words): tokens[pos] = frag_words[j]`
performs exactly the in-place updates `tokens[positions[j]] = frag_words[j]`
for `j` below both lengths, i.e. the updates enumerated by the zip. -/
def applySubst (tokens : List (List Char)) (positions : List ℕ)
    (fragWords : List (List Char)) : List (List Char) :=
  (positions.zip fragWords).foldl (fun acc pw => acc.set pw.1 pw.2) tokens

theorem foldl_set_length {α : Type} (ps : List (ℕ × α)) (init : List α) :
    (ps.foldl (fun acc pw => acc.set pw.1 pw.2) init).length = init.length := by
  induction ps generalizing init with
  | nil => rfl
  | cons p ps ih =>
    simp only [List.foldl_cons]
    rw [ih]
    simp

theorem foldl_set_getElem? {α : Type} (ps : List (ℕ × α)) (init : List α)
    (W : α → Prop) (hps : ∀ pw ∈ ps, W pw.2) (i : ℕ) :
    (ps.foldl (fun acc pw => acc.set pw.1 pw.2) init)[i]? = init[i]? ∨
      ((i ∈ ps.map Prod.fst) ∧
        ∃ w, W w ∧ (ps.foldl (fun acc pw => acc.set pw.1 pw.2) init)[i]? = some w) := by
  induction ps generalizing init with
  | nil => exact Or.inl rfl
  | cons p ps ih =>
    simp only [List.foldl_cons]
    rcases ih (init.set p.1 p.2) (fun pw hpw => hps pw (List.mem_cons_of_mem _ hpw)) with
      h1 | ⟨hmem, w, hw, heq⟩
    · rw [h1, List.getElem?_set]
      by_cases hpi : p.1 = i
      · subst hpi
        by_cases hlt : p.1 < init.length
        · refine Or.inr ⟨by simp, p.2, hps p (by simp), ?_⟩
          simp [hlt]
        · rw [if_pos rfl, if_neg hlt, List.getElem?_eq_none_iff.mpr (by omega)]
          simp
      · simp only [if_neg hpi]
        simp
    · exact Or.inr ⟨by simp [hmem], w, hw, heq⟩

theorem spokenIdxFrom_mem {i j : ℕ} {ts : List (List Char)}
    (h : j ∈ spokenIdxFrom i ts) :
    i ≤ j ∧ ∃ t, ts[j - i]? = some t ∧ t.head? ≠ some '[' := by
  induction ts generalizing i with
  | nil => simp [spokenIdxFrom] at h
  | cons t rest ih =>
    by_cases hb : t.head? = some '['
    · rw [spokenIdxFrom, if_pos hb] at h
      obtain ⟨hle, u, hu, hh⟩ := ih h
      refine ⟨by omega, u, ?_, hh⟩
      have : j - i = (j - (i + 1)) + 1 := by omega
      rw [this]
      simpa using hu
    · rw [spokenIdxFrom, if_neg hb] at h
      rcases List.mem_cons.mp h with rfl | h'
      · exact ⟨le_refl _, t, by simp, hb⟩
      · obtain ⟨hle, u, hu, hh⟩ := ih h'
        refine ⟨by omega, u, ?_, hh⟩
        have : j - i = (j - (i + 1)) + 1 := by omega
        rw [this]
        simpa using hu

/-- Relation between an original token and its replacement: unchanged, or a
structurally safe word put at a spoken position. -/
def TokRel (a b : List Char) : Prop :=
  a = b ∨ (a.head? ≠ some '[' ∧ GoodTok b)

theorem goodTok_head {b : List Char} (h : GoodTok b) : b.head? ≠ some '[' := by
  obtain ⟨hne, hchars⟩ := h
  cases b with
  | nil => exact absurd rfl hne
  | cons c cb =>
    have := (hchars c (by simp)).2.1
    simpa using this

theorem goodTok_plain {b : List Char} (h : GoodTok b) : PlainTok b :=
  ⟨h.1, fun c hc => (h.2 c hc).1, goodTok_head h⟩

theorem isDirTok_head {t : List Char} (h : IsDirTok t) : t.head? = some '[' :=
  matchDirective_head h

theorem forall₂_mem_right {α : Type} {R : α → α → Prop} {l l' : List α} {b : α}
    (h : List.Forall₂ R l l') (hb : b ∈ l') : ∃ a ∈ l, R a b := by
  induction h with
  | nil => simp at hb
  | cons hr _ ih =>
    rcases List.mem_cons.mp hb with rfl | hb'
    · exact ⟨_, by simp, hr⟩
    · obtain ⟨a, ha, har⟩ := ih hb'
      exact ⟨a, List.mem_cons_of_mem _ ha, har⟩

/-- The re-tokenization invariant survives replacing spoken tokens by
structurally safe words. -/
theorem okToks_of_rel {ts ts' : List (List Char)}
    (hok : OkToks ts) (hrel : List.Forall₂ TokRel ts ts') : OkToks ts' := by
  induction hrel with
  | nil => trivial
  | @cons a b l l' hr htail ih =>
    obtain ⟨hcls, hrest⟩ := hok
    refine ⟨?_, ih hrest⟩
    rcases hcls with hdir | hplain | ⟨hbad, hdead⟩
    · rcases hr with rfl | ⟨hh, _⟩
      · exact Or.inl hdir
      · exact absurd (isDirTok_head hdir) hh
    · rcases hr with rfl | ⟨_, hgood⟩
      · exact Or.inr (Or.inl hplain)
      · exact Or.inr (Or.inl (goodTok_plain hgood))
    · rcases hr with rfl | ⟨hh, _⟩
      · refine Or.inr (Or.inr ⟨hbad, ?_⟩)
        apply matchDirective_mono hbad.1 hbad.2.2 (wsHead_sepJoin l) (wsHead_sepJoin l')
        · intro hmem
          rcases mem_sepJoin hmem with h1 | ⟨t', ht', hc⟩
          · cases h1
          · obtain ⟨a', ha', har⟩ := forall₂_mem_right htail ht'
            rcases har with rfl | ⟨_, hgood⟩
            · exact mem_sepJoin_of_mem ha' hc
            · exact absurd rfl (hgood.2 ']' hc).2.2
        · exact hdead
      · exact absurd hbad.2.2 hh

theorem countP_eq_of_forall₂ {α : Type} {R : α → α → Prop} {p : α → Bool}
    (hR : ∀ a b, R a b → p a = p b) {l l' : List α}
    (h : List.Forall₂ R l l') : l.countP p = l'.countP p := by
  induction h with
  | nil => rfl
  | cons hr _ ih =>
    rw [List.countP_cons, List.countP_cons, ih, hR _ _ hr]

theorem filter_eq_of_forall₂ {α : Type} {R : α → α → Prop} {p : α → Bool}
    (hR : ∀ a b, R a b → p a = p b ∧ (p a = true → a = b)) {l l' : List α}
    (h : List.Forall₂ R l l') : l.filter p = l'.filter p := by
  induction h with
  | nil => rfl
  | @cons a b l l' hr _ ih =>
    by_cases hp : p a = true
    · rw [List.filter_cons_of_pos hp, List.filter_cons_of_pos (by rw [← (hR _ _ hr).1]; exact hp),
        ih, (hR _ _ hr).2 hp]
    · rw [List.filter_cons_of_neg (by simpa using hp),
        List.filter_cons_of_neg (by rw [← (hR _ _ hr).1]; simpa using hp), ih]

/-- Python's `\w` on ASCII text (IGNORECASE does not change the class):
letters, digits, underscore. -/
def wordChar (c : Char) : Bool :=
  c.isAlpha || c.isDigit || c = '_'

/-- Strip a lowercase pattern word from the head of the text, comparing
case-insensitively (IGNORECASE is modelled by lowercasing the text side;
the table's pattern words are lowercase letters). -/
def stripCI : List Char → List Char → Option (List Char)
  | [], s => some s
  | _ :: _, [] => none
  | p :: ps, c :: cs => if c.toLower = p then stripCI ps cs else none

/-- Attempt the regex `\b<p1> <p2>\b` (IGNORECASE) at the head of `s`.
The leading `\b` is checked by the caller (no word character may precede);
here: pattern word `p1`, one literal space, pattern word `p2`, then the
trailing boundary (end of text or a non-word character).  Returns the
remainder after the matched span. -/
def tryMatch (p1 p2 : List Char) (s : List Char) : Option (List Char) :=
  match stripCI p1 s with
  | none => none
  | some s1 =>
    match s1 with
    | ' ' :: s2 =>
      match stripCI p2 s2 with
      | none => none
      | some rest =>
        match rest with
        | [] => some []
        | c :: _ => if wordChar c then none else some rest
    | _ => none

theorem stripCI_length {p s r : List Char} (h : stripCI p s = some r) :
    s.length = p.length + r.length := by
  induction p generalizing s with
  | nil =>
    cases h
    simp
  | cons x ps ih =>
    match s with
    | [] => cases h
    | c :: cs =>
      simp only [stripCI] at h
      split at h
      · have := ih h
        simp only [List.length_cons]
        omega
      · cases h

theorem tryMatch_length {p1 p2 s rest : List Char}
    (h : tryMatch p1 p2 s = some rest) :
    s.length = p1.length + 1 + p2.length + rest.length := by
  unfold tryMatch at h
  split at h
  · cases h
  · rename_i s1 h1
    split at h
    · rename_i s2
      split at h
      · cases h
      · rename_i rest' h2
        have e1 := stripCI_length h1
        have e2 := stripCI_length h2
        split at h
        · cases h
          simp only [List.length_cons] at *
          omega
        · split at h
          · cases h
          · cases h
            simp only [List.length_cons] at *
            omega
    · cases h

/-- Left-to-right scan of `re.sub(r"\b<p1> <p2>\b", "<p1>'<p2>", text,
flags=re.IGNORECASE)` for one row of the `_fix_contractions` table
(src/agents/nonsense.py lines 97-98): at each position with no word
character immediately before (`prev = false`), try the pattern; on a match
emit the replacement `<p1>'<p2>` and continue after it (non-overlapping,
and the scan resumes with `prev = true` since every `p2` in the table is a
nonempty letter word); otherwise emit the character and advance. -/
def subFix (p1 p2 : List Char) (prev : Bool) (s : List Char) : List Char :=
  match s with
  | [] => []
  | c :: cs =>
    if prev then c :: subFix p1 p2 (wordChar c) cs
    else
      match h : tryMatch p1 p2 (c :: cs) with
      | some rest => p1 ++ '\'' :: p2 ++ subFix p1 p2 true rest
      | none => c :: subFix p1 p2 (wordChar c) cs
termination_by s.length
decreasing_by
  · simp
  · have := tryMatch_length h
    simp only [List.length_cons] at this ⊢
    omega
  · simp

/-- The ordered contraction-repair table of `_fix_contractions`
(src/agents/nonsense.py lines 71-96): each row `(p1, p2)` stands for the
rewrite `\b<p1> <p2>\b` → `<p1>'<p2>`, applied case-insensitively. -/
def FIXES : List (List Char × List Char) :=
  [("i".data, "m".data), ("don".data, "t".data), ("can".data, "t".data),
   ("won".data, "t".data), ("doesn".data, "t".data), ("isn".data, "t".data),
   ("didn".data, "t".data), ("wasn".data, "t".data), ("aren".data, "t".data),
   ("weren".data, "t".data), ("shouldn".data, "t".data), ("couldn".data, "t".data),
   ("wouldn".data, "t".data), ("i".data, "ve".data), ("i".data, "ll".data),
   ("i".data, "d".data), ("we".data, "re".data), ("they".data, "re".data),
   ("you".data, "re".data), ("it".data, "s".data), ("that".data, "s".data),
   ("what".data, "s".data), ("there".data, "s".data), ("here".data, "s".data)]

/-- Embedding of `_fix_contractions(text)` (src/agents/nonsense.py lines
69-99): the rewrites of the table applied one after the other, in order. -/
def _fix_contractions (s : List Char) : List Char :=
  FIXES.foldl (fun t f => subFix f.1 f.2 false t) s

/-- Strip trailing sentence punctuation: `next_word.rstrip(".!?…")`
(src/agents/nonsense.py line 131). -/
def rstripPunct (w : List Char) : List Char :=
  (w.reverse.dropWhile (fun c => c = '.' || c = '!' || c = '?' || c = '…')).reverse

/-- The Markov model held in `markov_model.json`.  The file itself is not
under src/, so its shape is modelled from the code that reads it
(`model["s"]`, `model["sw"]`, `model["c1"]`, `model["c2"]` in
src/agents/nonsense.py) and from the spec's data model (§3): `s` the
starter seed pairs (word lists), `sw` their frequency weights, `c1`/`c2`
the unigram/bigram tables mapping a key to `[word, frequency]` candidate
pairs; the JSON dictionaries become association lists. -/
structure MarkovModel where
  s : List (List (List Char))
  sw : List ℚ
  c1 : List (List Char × List (List Char × ℚ))
  c2 : List (List Char × List (List Char × ℚ))

/-- Association-list lookup, the embedding of a Python dict keyed by the
chain words (`key2 in model["c2"]`, `words[-1] in model["c1"]`). -/
def alookup {β : Type} (k : List Char) : List (List Char × β) → Option β
  | [] => none
  | (k', v) :: rest => if k' = k then some v else alookup k rest

/-- The candidate table consulted for the next word
(src/agents/nonsense.py lines 119-125): prefer the bigram table keyed by
`"{words[-2]}|{words[-1]}"` when the chain already has two words and the
key is present, otherwise fall back to the unigram table keyed by the last
word. -/
def chainOptions (m : MarkovModel) (words : List (List Char)) :
    Option (List (List Char × ℚ)) :=
  match words.reverse with
  | [] => none
  | [w1] => alookup w1 m.c1
  | w1 :: w2 :: _ =>
    match alookup (w2 ++ '|' :: w1) m.c2 with
    | some o => some o
    | none => alookup w1 m.c1

/-- The extension loop of `generate_fragment` (src/agents/nonsense.py lines
118-135).  `fuel` is the iteration count `target_len - len(words)` fixed
once before the loop; `rs k` is the `random.random()` draw inside the k-th
`_pick_from_options` call.  The outer `none` models the `IndexError` that
Python raises on `words[-1]` when `words` is empty; every "no next word"
condition (`not next_word`, empty strip result, no table entry) instead
breaks and keeps the shorter word list, as the code does. -/
def extendLoop (m : MarkovModel) (adjust : ℚ → ℚ) (rs : ℕ → ℚ) :
    ℕ → ℕ → List (List Char) → Option (List (List Char))
  | 0, _, words => some words
  | fuel + 1, k, words =>
    match words.getLast? with
    | none => none
    | some _ =>
      match chainOptions m words with
      | none => some words
      | some opts =>
        match _pick_from_options opts adjust (rs k) with
        | none => some words
        | some nw =>
          if nw = [] then some words
          else
            let clean := rstripPunct nw
            if clean = [] then some words
            else extendLoop m adjust rs fuel (k + 1) (words ++ [clean])

/-- Embedding of `generate_fragment(min_words, max_words, temperature)`
(src/agents/nonsense.py lines 102-139).  `targetLen` stands for the
`random.randint(min_words, max_words)` draw, `r0` for the starter-pick
draw, `rs` for the chain draws.  The result is
`_fix_contractions(" ".join(words[:target_len]).lower())`; `none` models
the exceptions Python raises on a degenerate model (empty starter list or
empty starter pair). -/
def generate_fragment (m : MarkovModel) (adjust : ℚ → ℚ) (targetLen : ℕ)
    (r0 : ℚ) (rs : ℕ → ℚ) : Option (List Char) :=
  match _pick_weighted m.s m.sw adjust r0 with
  | none => none
  | some starter =>
    match extendLoop m adjust rs (targetLen - starter.length) 0 starter with
    | none => none
    | some words =>
      some (_fix_contractions ((joinSpace (words.take targetLen)).map Char.toLower))

/-- Errors that can escape the injection code: a missing or unparseable
`markov_model.json` (the `open`/`json.load` of `_load_model`), or the
`IndexError` paths of fragment generation on a degenerate model. -/
inductive NonsenseError where
  | modelUnavailable
  | generationError
deriving DecidableEq

/-- The values read from `config['dials']['nonsense']` with their defaults
already applied (`enabled`, `injection_chance`, `min_fragment`,
`max_fragment`; `temperature` acts only through the weight transform,
modelled by `adjust`). -/
structure NonsenseSettings where
  enabled : Bool
  injection_chance : ℚ
  min_fragment : ℕ
  max_fragment : ℕ

/-- Eligibility window and substitution core of `inject_nonsense`
(src/agents/nonsense.py lines 170-199): tokenize keeping `[TAG: ...]`
blocks whole, list the spoken positions, honour the margin of 6 spoken
tokens at both ends, pick the start by `random.randint(lo, hi)` (the
oracle `pick lo hi`), overwrite the window with the fragment words and
re-join with single spaces.  Returns the text and whether injection
happened. -/
def injectWindow (script : List Char) (fragWords : List (List Char))
    (pick : ℕ → ℕ → ℕ) : List Char × Bool :=
  let tokens := findTokens script
  let spoken_idx := spokenIdxFrom 0 tokens
  let frag_len := fragWords.length
  if spoken_idx.length < 6 * 2 + frag_len then (script, false)
  else
    let lo := 6
    let hi := spoken_idx.length - 6 - frag_len
    if hi ≤ lo then (script, false)
    else
      let inject_at := pick lo hi
      let positions := (spoken_idx.drop inject_at).take frag_len
      (joinSpace (applySubst tokens positions fragWords), true)

/-- Embedding of `inject_nonsense(script_text, config)`
(src/agents/nonsense.py lines 142-199).  `roll` is the gate draw of
`random.random()`; `model?` the lazily loaded model (`none` when
`markov_model.json` is missing or unparseable); `tpick` models the
`randint` choosing the fragment length; `r0`, `rs` the generation draws;
`pick` the `randint` choosing the injection start.  Errors are the
exceptions that escape the Python function uncaught. -/
def inject_nonsense (script : List Char) (st : NonsenseSettings) (roll : ℚ)
    (model? : Option MarkovModel) (adjust : ℚ → ℚ) (tpick : ℕ → ℕ → ℕ)
    (r0 : ℚ) (rs : ℕ → ℚ) (pick : ℕ → ℕ → ℕ) :
    Except NonsenseError (List Char × Bool × Option (List Char)) :=
  if st.enabled = false then .ok (script, false, none)
  else if st.injection_chance < roll then .ok (script, false, none)
  else
    match model? with
    | none => .error .modelUnavailable
    | some m =>
      match generate_fragment m adjust (tpick st.min_fragment st.max_fragment) r0 rs with
      | none => .error .generationError
      | some fragment =>
        let res := injectWindow script (pySplit fragment) pick
        if res.2 then .ok (res.1, true, some fragment)
        else .ok (res.1, false, none)

/-- The nonsense step of `generate_script` (src/agents/writer.py lines
256-260): `script_text, injected, fragment = inject_nonsense(script_text,
config)` with no surrounding try/except, so whatever `inject_nonsense`
raises propagates out of `generate_script` unchanged. -/
def writer_nonsense_step (script : List Char) (st : NonsenseSettings) (roll : ℚ)
    (model? : Option MarkovModel) (adjust : ℚ → ℚ) (tpick : ℕ → ℕ → ℕ)
    (r0 : ℚ) (rs : ℕ → ℚ) (pick : ℕ → ℕ → ℕ) : Except NonsenseError (List Char) :=
  (inject_nonsense script st roll model? adjust tpick r0 rs pick).map (fun x => x.1)

/-- Modelled from the spec: `inject_heavy_nonsense(script, config,
target_ratio)` is imported from `agents.nonsense` by src/main.py,
src/agents/hourly_summary.py and src/dashboard/app.py, but its definition
is missing from src/.  Per spec §6 it is "the same primitive invoked with
a much higher target fraction of the script replaced": the caller derives
the fragment length from the target ratio of the spoken word count,
requests a fragment of that length (`genFrag`), and reuses the identical
margin-6 eligibility-window and equal-length substitution logic; an empty
or too-small window returns the script unchanged (spec §9).  Returns the
new text and the fragment sample, as destructured by its callers. -/
def inject_heavy_nonsense (script : List Char) (target_ratio : ℚ)
    (genFrag : ℕ → List Char) (pick : ℕ → ℕ → ℕ) : List Char × List Char :=
  let tokens := findTokens script
  let spoken_idx := spokenIdxFrom 0 tokens
  let fragment := genFrag (⌊target_ratio * (spoken_idx.length : ℚ)⌋.toNat)
  let fw := pySplit fragment
  if spoken_idx.length < 6 * 2 + fw.length then (script, fragment)
  else
    let lo := 6
    let hi := spoken_idx.length - 6 - fw.length
    if hi ≤ lo then (script, fragment)
    else
      let inject_at := pick lo hi
      let positions := (spoken_idx.drop inject_at).take fw.length
      (joinSpace (applySubst tokens positions fw), fragment)

/-- Spoken word count of a script: tokenize and count the tokens that do
not start with `[` (spec §3 with the code's spoken test from line 177). -/
def spokenCount (s : List Char) : ℕ :=
  (findTokens s).countP (fun t => !(t.head? == some '['))

/-- The ordered list of directive tokens a script contains: tokenize and
keep the exact matches of the directive pattern. -/
def directiveToks (s : List Char) : List (List Char) :=
  (findTokens s).filter (fun t => matchDirective t == some (t, []))

theorem pySplit_nil : pySplit [] = [] := by
  simp [pySplit]

theorem pySplit_ws {c : Char} {cs : List Char} (hw : pyWS c = true) :
    pySplit (c :: cs) = pySplit cs := by
  rw [pySplit]
  simp [hw]

theorem pySplit_word {c : Char} {cs : List Char} (hw : pyWS c = false) :
    pySplit (c :: cs) = (c :: cs.takeWhile notWS) :: pySplit (cs.dropWhile notWS) := by
  rw [pySplit]
  simp [hw]

/-- Words produced by `str.split()` are nonempty and whitespace-free. -/
theorem pySplit_words {s : List Char} :
    ∀ w ∈ pySplit s, w ≠ [] ∧ ∀ c ∈ w, pyWS c = false := by
  induction s using pySplit.induct with
  | case1 =>
    rw [pySplit_nil]
    simp
  | case2 c cs hw ih =>
    rw [pySplit_ws hw]
    exact ih
  | case3 c cs hw ih =>
    have hw' : pyWS c = false := by simpa using hw
    rw [pySplit_word hw']
    intro w hmem
    rcases List.mem_cons.mp hmem with rfl | h'
    · refine ⟨by simp, ?_⟩
      intro x hx
      rcases List.mem_cons.mp hx with rfl | hx'
      · exact hw'
      · simpa [notWS] using List.mem_takeWhile_imp hx'
    · exact ih w h'

/-- Characters of split words come from the input string. -/
theorem pySplit_chars {s : List Char} :
    ∀ {w : List Char} {c : Char}, w ∈ pySplit s → c ∈ w → c ∈ s := by
  induction s using pySplit.induct with
  | case1 =>
    intro w c hw _
    rw [pySplit_nil] at hw
    simp at hw
  | case2 x cs hw ih =>
    intro w c hmem hc
    rw [pySplit_ws hw] at hmem
    exact List.mem_cons_of_mem _ (ih hmem hc)
  | case3 x cs hw ih =>
    intro w c hmem hc
    rw [pySplit_word (by simpa using hw)] at hmem
    rcases List.mem_cons.mp hmem with rfl | h'
    · rcases List.mem_cons.mp hc with rfl | hc'
      · simp
      · exact List.mem_cons_of_mem _ ((List.takeWhile_sublist notWS).mem hc')
    · exact List.mem_cons_of_mem _ ((List.dropWhile_sublist notWS).mem (ih h' hc))

/-- Splitting a bracket-free string produces structurally safe words. -/
theorem goodTok_of_pySplit {frag : List Char}
    (hb : ∀ c ∈ frag, c ≠ '[' ∧ c ≠ ']') :
    ∀ w ∈ pySplit frag, GoodTok w := by
  intro w hw
  obtain ⟨hne, hws⟩ := pySplit_words w hw
  refine ⟨hne, fun c hc => ⟨hws c hc, ?_, ?_⟩⟩
  · exact (hb c (pySplit_chars hw hc)).1
  · exact (hb c (pySplit_chars hw hc)).2

theorem applySubst_forall₂ (tokens : List (List Char)) (positions : List ℕ)
    (frags : List (List Char))
    (hpos : ∀ p ∈ positions, ∃ t, tokens[p]? = some t ∧ t.head? ≠ some '[')
    (hfr : ∀ w ∈ frags, GoodTok w) :
    List.Forall₂ TokRel tokens (applySubst tokens positions frags) := by
  have hlen : (applySubst tokens positions frags).length = tokens.length :=
    foldl_set_length _ _
  rw [List.forall₂_iff_get]
  refine ⟨hlen.symm, ?_⟩
  intro i h1 h2
  rcases foldl_set_getElem? (positions.zip frags) tokens GoodTok
      (fun pw hpw => hfr pw.2 (List.of_mem_zip hpw).2) i with heq | ⟨hmem, w, hw, heq⟩
  · left
    have e1 : tokens[i]? = some (tokens.get ⟨i, h1⟩) := by
      simp [List.getElem?_eq_getElem h1]
    have e2 : (applySubst tokens positions frags)[i]? =
        some ((applySubst tokens positions frags).get ⟨i, h2⟩) := by
      simp [List.getElem?_eq_getElem h2]
    have heq2 : (applySubst tokens positions frags)[i]? = tokens[i]? := heq
    rw [e2, e1] at heq2
    exact (Option.some_inj.mp heq2).symm
  · right
    obtain ⟨pw, hpw, hfst⟩ := List.mem_map.mp hmem
    have hp : i ∈ positions := hfst ▸ (List.of_mem_zip hpw).1
    obtain ⟨t, ht, hh⟩ := hpos i hp
    have e1 : tokens[i]? = some (tokens.get ⟨i, h1⟩) := by
      simp [List.getElem?_eq_getElem h1]
    rw [e1] at ht
    have e2 : (applySubst tokens positions frags)[i]? =
        some ((applySubst tokens positions frags).get ⟨i, h2⟩) := by
      simp [List.getElem?_eq_getElem h2]
    have heq2 : (applySubst tokens positions frags)[i]? = some w := heq
    rw [e2] at heq2
    refine ⟨?_, ?_⟩
    · exact (Option.some_inj.mp ht) ▸ hh
    · exact (Option.some_inj.mp heq2) ▸ hw

theorem injectWindow_small {script : List Char} {fw : List (List Char)}
    {pick : ℕ → ℕ → ℕ}
    (h : (spokenIdxFrom 0 (findTokens script)).length < 6 * 2 + fw.length) :
    injectWindow script fw pick = (script, false) := by
  simp only [injectWindow]
  rw [if_pos h]

theorem injectWindow_edge {script : List Char} {fw : List (List Char)}
    {pick : ℕ → ℕ → ℕ}
    (h1 : ¬ (spokenIdxFrom 0 (findTokens script)).length < 6 * 2 + fw.length)
    (h2 : (spokenIdxFrom 0 (findTokens script)).length - 6 - fw.length ≤ 6) :
    injectWindow script fw pick = (script, false) := by
  simp only [injectWindow]
  rw [if_neg h1, if_pos h2]

theorem injectWindow_go {script : List Char} {fw : List (List Char)}
    {pick : ℕ → ℕ → ℕ}
    (h1 : ¬ (spokenIdxFrom 0 (findTokens script)).length < 6 * 2 + fw.length)
    (h2 : ¬ (spokenIdxFrom 0 (findTokens script)).length - 6 - fw.length ≤ 6) :
    injectWindow script fw pick =
      (joinSpace (applySubst (findTokens script)
        (((spokenIdxFrom 0 (findTokens script)).drop
          (pick 6 ((spokenIdxFrom 0 (findTokens script)).length - 6 - fw.length))).take
          fw.length) fw), true) := by
  simp only [injectWindow]
  rw [if_neg h1, if_neg h2]

theorem mem_spokenIdx_of_mem_window {tokens : List (List Char)} {a n p : ℕ}
    (hp : p ∈ ((spokenIdxFrom 0 tokens).drop a).take n) :
    ∃ t, tokens[p]? = some t ∧ t.head? ≠ some '[' := by
  have h1 : p ∈ spokenIdxFrom 0 tokens := by
    have h2 := List.mem_of_mem_take hp
    exact List.mem_of_mem_drop h2
  obtain ⟨_, t, ht, hh⟩ := spokenIdxFrom_mem h1
  simp only [Nat.sub_zero] at ht
  exact ⟨t, ht, hh⟩

/-- Either the window logic declines and returns the script unchanged, or it
injects and the output re-tokenizes to a token list related to the input's
token-for-token. -/
theorem injectWindow_cases {script : List Char} {fw : List (List Char)}
    {pick : ℕ → ℕ → ℕ} (hgood : ∀ w ∈ fw, GoodTok w) :
    injectWindow script fw pick = (script, false) ∨
      ((injectWindow script fw pick).2 = true ∧
        List.Forall₂ TokRel (findTokens script)
          (findTokens (injectWindow script fw pick).1)) := by
  by_cases h1 : (spokenIdxFrom 0 (findTokens script)).length < 6 * 2 + fw.length
  · exact Or.inl (injectWindow_small h1)
  by_cases h2 : (spokenIdxFrom 0 (findTokens script)).length - 6 - fw.length ≤ 6
  · exact Or.inl (injectWindow_edge h1 h2)
  right
  rw [injectWindow_go h1 h2]
  refine ⟨rfl, ?_⟩
  have hrel := applySubst_forall₂ (findTokens script)
    (((spokenIdxFrom 0 (findTokens script)).drop
      (pick 6 ((spokenIdxFrom 0 (findTokens script)).length - 6 - fw.length))).take fw.length)
    fw (fun p hp => mem_spokenIdx_of_mem_window hp) hgood
  have hok' := okToks_of_rel (okToks_findTokens script) hrel
  exact (findTokens_joinSpace hok').symm ▸ hrel

theorem tokRel_spoken {a b : List Char} (h : TokRel a b) :
    (!(a.head? == some '[')) = (!(b.head? == some '[')) := by
  rcases h with rfl | ⟨hh, hg⟩
  · rfl
  · have hb := goodTok_head hg
    have ha' : (a.head? == some '[') = false := beq_eq_false_iff_ne.mpr hh
    have hb' : (b.head? == some '[') = false := beq_eq_false_iff_ne.mpr hb
    rw [ha', hb']

theorem tokRel_directive {a b : List Char} (h : TokRel a b) :
    (matchDirective a == some (a, [])) = (matchDirective b == some (b, [])) ∧
      ((matchDirective a == some (a, [])) = true → a = b) := by
  rcases h with rfl | ⟨hh, hg⟩
  · exact ⟨rfl, fun _ => rfl⟩
  · constructor
    · have ha : matchDirective a ≠ some (a, []) := by
        intro hdir
        exact hh (isDirTok_head hdir)
      have hb : matchDirective b ≠ some (b, []) := by
        intro hdir
        exact goodTok_head hg (isDirTok_head hdir)
      simp [ha, hb]
    · intro hdir
      exfalso
      exact hh (isDirTok_head (by simpa using hdir))

/-- Injection leaves the spoken word count of the script unchanged. -/
theorem injectWindow_spokenCount {script : List Char} {fw : List (List Char)}
    {pick : ℕ → ℕ → ℕ} (hgood : ∀ w ∈ fw, GoodTok w) :
    spokenCount (injectWindow script fw pick).1 = spokenCount script := by
  rcases @injectWindow_cases script fw pick hgood with heq | ⟨_, hrel⟩
  · rw [heq]
  · unfold spokenCount
    exact (countP_eq_of_forall₂ (fun a b h => tokRel_spoken h) hrel).symm

/-- Injection preserves the ordered list of directive tokens verbatim. -/
theorem injectWindow_directives {script : List Char} {fw : List (List Char)}
    {pick : ℕ → ℕ → ℕ} (hgood : ∀ w ∈ fw, GoodTok w) :
    directiveToks (injectWindow script fw pick).1 = directiveToks script := by
  rcases @injectWindow_cases script fw pick hgood with heq | ⟨_, hrel⟩
  · rw [heq]
  · unfold directiveToks
    exact (filter_eq_of_forall₂ (fun a b h => tokRel_directive h) hrel).symm

theorem toNat_ofNat_small {n : ℕ} (h : n < 55296) : (Char.ofNat n).toNat = n := by
  have hv : n.isValidChar := Or.inl h
  simp only [Char.ofNat, hv, dif_pos]
  simp only [Char.ofNatAux, Char.toNat]
  simp [UInt32.toNat]

theorem char_eq_of_toNat {a b : Char} (h : a.toNat = b.toNat) : a = b := by
  rw [← Char.ofNat_toNat a, ← Char.ofNat_toNat b, h]

/-- Behaviour of `Char.toLower` (the ASCII lowering `str.lower` performs on
ASCII text): identity off `A`-`Z`, shift by 32 on it. -/
theorem toLower_spec (c : Char) :
    (¬(65 ≤ c.toNat ∧ c.toNat ≤ 90) ∧ Char.toLower c = c) ∨
      (65 ≤ c.toNat ∧ c.toNat ≤ 90 ∧ (Char.toLower c).toNat = c.toNat + 32) := by
  by_cases h : 65 ≤ c.toNat ∧ c.toNat ≤ 90
  · right
    refine ⟨h.1, h.2, ?_⟩
    simp only [Char.toLower]
    rw [if_pos (by exact ⟨h.1, h.2⟩)]
    exact toNat_ofNat_small (by omega)
  · left
    refine ⟨h, ?_⟩
    simp only [Char.toLower]
    rw [if_neg (by exact h)]

/-- A character whose lowercase form is outside `a`-`z` was not changed. -/
theorem toLower_fix {c d : Char} (hd : d.toNat < 97 ∨ 122 < d.toNat)
    (h : Char.toLower c = d) : c = d := by
  rcases toLower_spec c with ⟨_, he⟩ | ⟨h1, h2, he⟩
  · rw [← he, h]
  · exfalso
    have : d.toNat = c.toNat + 32 := by rw [← h]; exact he
    omega

theorem toLower_idem (c : Char) :
    Char.toLower (Char.toLower c) = Char.toLower c := by
  rcases toLower_spec c with ⟨_, he⟩ | ⟨h1, h2, he⟩
  · rw [he, he]
  · rcases toLower_spec (Char.toLower c) with ⟨_, he2⟩ | ⟨g1, g2, _⟩
    · exact he2
    · omega

theorem pyWS_false_of_ge {c : Char} (h : 65 ≤ c.toNat) : pyWS c = false := by
  have h1 : c ≠ ' ' := fun he => absurd (he ▸ h) (by decide)
  have h2 : c ≠ '\t' := fun he => absurd (he ▸ h) (by decide)
  have h3 : c ≠ '\n' := fun he => absurd (he ▸ h) (by decide)
  have h4 : c ≠ '\r' := fun he => absurd (he ▸ h) (by decide)
  have h5 : c ≠ '\x0b' := fun he => absurd (he ▸ h) (by decide)
  have h6 : c ≠ '\x0c' := fun he => absurd (he ▸ h) (by decide)
  simp [pyWS, h1, h2, h3, h4, h5, h6]

theorem pyWS_toLower (c : Char) : pyWS (Char.toLower c) = pyWS c := by
  rcases toLower_spec c with ⟨_, he⟩ | ⟨h1, h2, he⟩
  · rw [he]
  · rw [pyWS_false_of_ge (by omega), pyWS_false_of_ge (by omega)]

theorem isAlpha_of_upper {c : Char} (h1 : 65 ≤ c.toNat) (h2 : c.toNat ≤ 90) :
    c.isAlpha = true := by
  unfold Char.isAlpha Char.isUpper
  have e1 : (65 : UInt32) ≤ c.val := h1
  have e2 : c.val ≤ (90 : UInt32) := h2
  simp only [ge_iff_le, Bool.or_eq_true, decide_eq_true_eq, Bool.and_eq_true]
  exact Or.inl ⟨e1, e2⟩

theorem isAlpha_of_lower {c : Char} (h1 : 97 ≤ c.toNat) (h2 : c.toNat ≤ 122) :
    c.isAlpha = true := by
  unfold Char.isAlpha Char.isLower
  have e1 : (97 : UInt32) ≤ c.val := h1
  have e2 : c.val ≤ (122 : UInt32) := h2
  simp only [ge_iff_le, Bool.or_eq_true, decide_eq_true_eq, Bool.and_eq_true]
  exact Or.inr ⟨e1, e2⟩

theorem wordChar_toLower (c : Char) : wordChar (Char.toLower c) = wordChar c := by
  rcases toLower_spec c with ⟨_, he⟩ | ⟨h1, h2, he⟩
  · rw [he]
  · have g1 : wordChar c = true := by
      simp [wordChar, isAlpha_of_upper h1 h2]
    have g2 : wordChar (Char.toLower c) = true := by
      have ha := isAlpha_of_lower (c := Char.toLower c) (by omega) (by omega)
      simp [wordChar, ha]
    rw [g1, g2]

/-- Per-character effect of one contraction rewrite: a character is kept,
lowercased, or is the matched span's inner space turned into the
apostrophe of the replacement. -/
def charRel (a b : Char) : Prop :=
  b = a ∨ b = Char.toLower a ∨ (a = ' ' ∧ b = '\'')

theorem charRel_refl (a : Char) : charRel a a :=
  Or.inl rfl

theorem charRel_trans {a b c : Char} (h1 : charRel a b) (h2 : charRel b c) :
    charRel a c := by
  rcases h1 with rfl | rfl | ⟨rfl, rfl⟩
  · exact h2
  · rcases h2 with rfl | rfl | ⟨hb, rfl⟩
    · exact Or.inr (Or.inl rfl)
    · exact Or.inr (Or.inl (toLower_idem a))
    · exact Or.inr (Or.inr ⟨toLower_fix (by decide) hb, rfl⟩)
  · rcases h2 with rfl | rfl | ⟨hb, _⟩
    · exact Or.inr (Or.inr ⟨rfl, rfl⟩)
    · exact Or.inr (Or.inr ⟨rfl, by decide⟩)
    · exact absurd hb (by decide)

theorem forall₂_trans {α : Type} {R : α → α → Prop}
    (hT : ∀ a b c, R a b → R b c → R a c) :
    ∀ {l1 l2 l3 : List α}, List.Forall₂ R l1 l2 → List.Forall₂ R l2 l3 →
      List.Forall₂ R l1 l3 := by
  intro l1 l2 l3 h12 h23
  induction h12 generalizing l3 with
  | nil =>
    cases h23
    exact List.Forall₂.nil
  | cons hr _ ih =>
    cases h23 with
    | cons hr' htail' => exact List.Forall₂.cons (hT _ _ _ hr hr') (ih htail')

theorem forall₂_refl_charRel (l : List Char) : List.Forall₂ charRel l l := by
  induction l with
  | nil => exact List.Forall₂.nil
  | cons c cs ih => exact List.Forall₂.cons (charRel_refl c) ih

theorem charRel_of_map {u p : List Char} (h : u.map Char.toLower = p) :
    List.Forall₂ charRel u p := by
  induction u generalizing p with
  | nil =>
    subst h
    exact List.Forall₂.nil
  | cons c cs ih =>
    subst h
    exact List.Forall₂.cons (Or.inr (Or.inl rfl)) (ih rfl)

/-- The characters of a matched contraction span are `charRel`-related to
the replacement `p1 ++ ' :: p2`. -/
theorem charRel_span {u p1 p2 : List Char}
    (h : u.map Char.toLower = p1 ++ ' ' :: p2) :
    List.Forall₂ charRel u (p1 ++ '\'' :: p2) := by
  induction p1 generalizing u with
  | nil =>
    match u with
    | [] => simp at h
    | c :: cs =>
      simp only [List.map_cons, List.nil_append, List.cons.injEq] at h
      obtain ⟨h1, h2⟩ := h
      have hc : c = ' ' := toLower_fix (by decide) h1
      exact List.Forall₂.cons (Or.inr (Or.inr ⟨hc, rfl⟩)) (charRel_of_map h2)
  | cons p ps ih =>
    match u with
    | [] => simp at h
    | c :: cs =>
      simp only [List.map_cons, List.cons_append, List.cons.injEq] at h
      obtain ⟨h1, h2⟩ := h
      exact List.Forall₂.cons (Or.inr (Or.inl h1.symm)) (ih h2)

theorem stripCI_decomp {p s r : List Char} (h : stripCI p s = some r) :
    ∃ u, s = u ++ r ∧ u.map Char.toLower = p := by
  induction p generalizing s with
  | nil =>
    cases h
    exact ⟨[], by simp, rfl⟩
  | cons x ps ih =>
    match s with
    | [] => cases h
    | c :: cs =>
      simp only [stripCI] at h
      split at h
      · rename_i hcl
        obtain ⟨u, rfl, hu⟩ := ih h
        exact ⟨c :: u, rfl, by simp [hu, hcl]⟩
      · cases h

theorem tryMatch_decomp {p1 p2 s rest : List Char}
    (h : tryMatch p1 p2 s = some rest) :
    ∃ u, s = u ++ rest ∧ u.map Char.toLower = p1 ++ ' ' :: p2 := by
  unfold tryMatch at h
  split at h
  · cases h
  · rename_i s1 h1
    split at h
    · rename_i s2
      split at h
      · cases h
      · rename_i rest' h2
        obtain ⟨u1, hs, hu1⟩ := stripCI_decomp h1
        obtain ⟨u2, hs2, hu2⟩ := stripCI_decomp h2
        have hrest : rest = rest' := by
          split at h
          · cases h; rfl
          · split at h
            · cases h
            · cases h; rfl
        subst hrest
        refine ⟨u1 ++ ' ' :: u2, ?_, ?_⟩
        · rw [hs, hs2]
          simp
        · rw [List.map_append, hu1, List.map_cons, hu2]
          have : Char.toLower ' ' = ' ' := by decide
          rw [this]
    · cases h

theorem subFix_nil (p1 p2 : List Char) (prev : Bool) : subFix p1 p2 prev [] = [] := by
  rw [subFix]

theorem subFix_prev (p1 p2 : List Char) (c : Char) (cs : List Char) :
    subFix p1 p2 true (c :: cs) = c :: subFix p1 p2 (wordChar c) cs := by
  rw [subFix, if_pos rfl]

theorem subFix_hit {p1 p2 : List Char} {c : Char} {cs rest : List Char}
    (hm : tryMatch p1 p2 (c :: cs) = some rest) :
    subFix p1 p2 false (c :: cs) = p1 ++ '\'' :: p2 ++ subFix p1 p2 true rest := by
  rw [subFix]
  simp only [Bool.false_eq_true, if_false]
  split
  · rename_i rest' h'
    rw [hm] at h'
    cases h'
    rfl
  · rename_i h'
    rw [hm] at h'
    cases h'

theorem subFix_miss {p1 p2 : List Char} {c : Char} {cs : List Char}
    (hm : tryMatch p1 p2 (c :: cs) = none) :
    subFix p1 p2 false (c :: cs) = c :: subFix p1 p2 (wordChar c) cs := by
  rw [subFix]
  simp only [Bool.false_eq_true, if_false]
  split
  · rename_i rest' h'
    rw [hm] at h'
    cases h'
  · rfl

theorem forall₂_append {α : Type} {R : α → α → Prop} {l1 l2 l3 l4 : List α}
    (h1 : List.Forall₂ R l1 l2) (h2 : List.Forall₂ R l3 l4) :
    List.Forall₂ R (l1 ++ l3) (l2 ++ l4) := by
  induction h1 with
  | nil => exact h2
  | cons hr _ ih => exact List.Forall₂.cons hr ih

/-- Each single contraction rewrite relates input and output
character-for-character (in particular it preserves length). -/
theorem subFix_rel (p1 p2 : List Char) (prev : Bool) (s : List Char) :
    List.Forall₂ charRel s (subFix p1 p2 prev s) := by
  induction prev, s using subFix.induct p1 p2 with
  | case1 prev =>
    rw [subFix_nil]
    exact List.Forall₂.nil
  | case2 c cs ih =>
    rw [subFix_prev]
    exact List.Forall₂.cons (charRel_refl c) ih
  | case3 prev c cs hprev rest hm ih =>
    have hp : prev = false := by simpa using hprev
    subst hp
    rw [subFix_hit hm]
    obtain ⟨u, hs, hu⟩ := tryMatch_decomp hm
    rw [hs]
    exact forall₂_append (charRel_span hu) ih
  | case4 prev c cs hprev hm ih =>
    have hp : prev = false := by simpa using hprev
    subst hp
    rw [subFix_miss hm]
    exact List.Forall₂.cons (charRel_refl c) ih

/-- The full contraction repair relates input and output
character-for-character. -/
theorem fixContractions_rel (s : List Char) :
    List.Forall₂ charRel s (_fix_contractions s) := by
  unfold _fix_contractions
  generalize FIXES = fs
  induction fs generalizing s with
  | nil => exact forall₂_refl_charRel s
  | cons f fs ih =>
    simp only [List.foldl_cons]
    exact forall₂_trans (R := charRel) (fun _ _ _ h1 h2 => charRel_trans h1 h2)
      (subFix_rel f.1 f.2 false s) (ih (subFix f.1 f.2 false s))

theorem charRel_bracket {a b : Char} (h : charRel a b) (hb : b = '[' ∨ b = ']') :
    a = b := by
  rcases h with rfl | hl | ⟨rfl, rfl⟩
  · rfl
  · rcases hb with rfl | rfl
    · exact toLower_fix (by decide) hl.symm
    · exact toLower_fix (by decide) hl.symm
  · rcases hb with h' | h' <;> exact absurd h' (by decide)

theorem mem_bracket_fixContractions {s : List Char} {c : Char}
    (hc : c ∈ _fix_contractions s) (hb : c = '[' ∨ c = ']') : c ∈ s := by
  obtain ⟨a, ha, har⟩ := forall₂_mem_right (fixContractions_rel s) hc
  exact charRel_bracket har hb ▸ ha

/-- Modelled from the spec: the words stored in the Markov tables (spec §3:
starter seed pairs and `[word, frequency]` candidate lists drawn from the
training corpus; `markov_model.json` itself is absent from src/) are
ordinary corpus words and contain no bracket characters, so a generated
fragment cannot collide with the script's directive syntax. -/
def ModelBracketFree (m : MarkovModel) : Prop :=
  (∀ st ∈ m.s, ∀ w ∈ st, ∀ c ∈ w, c ≠ '[' ∧ c ≠ ']') ∧
    (∀ kv ∈ m.c1, ∀ ow ∈ kv.2, ∀ c ∈ ow.1, c ≠ '[' ∧ c ≠ ']') ∧
    (∀ kv ∈ m.c2, ∀ ow ∈ kv.2, ∀ c ∈ ow.1, c ≠ '[' ∧ c ≠ ']')

theorem getElem?_mem {α : Type} {l : List α} {i : ℕ} {a : α}
    (h : l[i]? = some a) : a ∈ l := by
  rcases List.getElem?_eq_some_iff.mp h with ⟨hi, rfl⟩
  exact List.getElem_mem hi

theorem pick_weighted_some_mem {α : Type} {items : List α} {weights : List ℚ}
    {adjust : ℚ → ℚ} {r01 : ℚ} {a : α}
    (h : _pick_weighted items weights adjust r01 = some a) : a ∈ items := by
  unfold _pick_weighted at h
  split at h
  · exact getElem?_mem h
  · exact mem_of_getLast?_eq h

theorem pick_from_options_mem {options : List (List Char × ℚ)}
    {adjust : ℚ → ℚ} {r01 : ℚ} {w : List Char}
    (h : _pick_from_options options adjust r01 = some w) :
    ∃ q, (w, q) ∈ options := by
  unfold _pick_from_options at h
  split at h
  · cases h
  · split at h
    · rename_i i hw
      match hoi : options[i]? with
      | none =>
        rw [hoi] at h
        cases h
      | some ow =>
        rw [hoi] at h
        cases h
        exact ⟨ow.2, getElem?_mem hoi⟩
    · match hol : options.getLast? with
      | none =>
        rw [hol] at h
        cases h
      | some ow =>
        rw [hol] at h
        cases h
        exact ⟨ow.2, mem_of_getLast?_eq hol⟩

theorem alookup_mem {β : Type} {k : List Char} {v : β} {l : List (List Char × β)}
    (h : alookup k l = some v) : (k, v) ∈ l := by
  induction l with
  | nil => cases h
  | cons kv rest ih =>
    match kv with
    | (k', v') =>
      simp only [alookup] at h
      split at h
      · rename_i heq
        cases h
        subst heq
        simp
      · exact List.mem_cons_of_mem _ (ih h)

theorem chainOptions_mem {m : MarkovModel} {words : List (List Char)}
    {opts : List (List Char × ℚ)} (h : chainOptions m words = some opts) :
    (∃ k, (k, opts) ∈ m.c1) ∨ (∃ k, (k, opts) ∈ m.c2) := by
  unfold chainOptions at h
  split at h
  · cases h
  · exact Or.inl ⟨_, alookup_mem h⟩
  · split at h
    · rename_i h2
      cases h
      exact Or.inr ⟨_, alookup_mem h2⟩
    · exact Or.inl ⟨_, alookup_mem h⟩

theorem rstripPunct_chars {w : List Char} {c : Char} (h : c ∈ rstripPunct w) :
    c ∈ w := by
  unfold rstripPunct at h
  have h1 := List.mem_reverse.mp h
  have h2 := (List.dropWhile_sublist _).mem h1
  exact List.mem_reverse.mp h2

theorem extendLoop_chars {m : MarkovModel} {adjust : ℚ → ℚ} {rs : ℕ → ℚ}
    (hc1 : ∀ kv ∈ m.c1, ∀ ow ∈ kv.2, ∀ c ∈ ow.1, c ≠ '[' ∧ c ≠ ']')
    (hc2 : ∀ kv ∈ m.c2, ∀ ow ∈ kv.2, ∀ c ∈ ow.1, c ≠ '[' ∧ c ≠ ']') :
    ∀ (fuel k : ℕ) (words out : List (List Char)),
      (∀ w ∈ words, ∀ c ∈ w, c ≠ '[' ∧ c ≠ ']') →
      extendLoop m adjust rs fuel k words = some out →
      ∀ w ∈ out, ∀ c ∈ w, c ≠ '[' ∧ c ≠ ']' := by
  intro fuel
  induction fuel with
  | zero =>
    intro k words out hw h
    cases h
    exact hw
  | succ fuel ih =>
    intro k words out hw h
    rw [extendLoop] at h
    split at h
    · cases h
    · split at h
      · cases h
        exact hw
      · rename_i opts hopts
        split at h
        · cases h
          exact hw
        · rename_i nw hnw
          split at h
          · cases h
            exact hw
          · change (if rstripPunct nw = [] then some words
              else extendLoop m adjust rs fuel (k + 1) (words ++ [rstripPunct nw])) =
              some out at h
            split at h
            · cases h
              exact hw
            · have hnwfree : ∀ c ∈ nw, c ≠ '[' ∧ c ≠ ']' := by
                obtain ⟨q, hq⟩ := pick_from_options_mem hnw
                rcases chainOptions_mem hopts with ⟨kk, hkv⟩ | ⟨kk, hkv⟩
                · exact fun c hc => hc1 (kk, opts) hkv (nw, q) hq c hc
                · exact fun c hc => hc2 (kk, opts) hkv (nw, q) hq c hc
              refine ih (k + 1) (words ++ [rstripPunct nw]) out ?_ h
              intro w hmem c hc
              rcases List.mem_append.mp hmem with h1 | h1
              · exact hw w h1 c hc
              · have : w = rstripPunct nw := by simpa using h1
                subst this
                exact hnwfree c (rstripPunct_chars hc)

theorem mem_take {α : Type} {l : List α} {n : ℕ} {a : α} (h : a ∈ l.take n) :
    a ∈ l :=
  (List.take_sublist n l).mem h

/-- A fragment generated from a bracket-free model contains no bracket
characters. -/
theorem generate_fragment_bracketFree {m : MarkovModel} {adjust : ℚ → ℚ}
    {targetLen : ℕ} {r0 : ℚ} {rs : ℕ → ℚ} {frag : List Char}
    (hm : ModelBracketFree m)
    (h : generate_fragment m adjust targetLen r0 rs = some frag) :
    ∀ c ∈ frag, c ≠ '[' ∧ c ≠ ']' := by
  unfold generate_fragment at h
  split at h
  · cases h
  · rename_i starter hst
    split at h
    · cases h
    · rename_i words hext
      cases h
      have hwords : ∀ w ∈ words, ∀ c ∈ w, c ≠ '[' ∧ c ≠ ']' := by
        refine extendLoop_chars hm.2.1 hm.2.2 _ _ starter words ?_ hext
        intro w hw c hc
        exact hm.1 starter (pick_weighted_some_mem hst) w hw c hc
      intro c hc
      constructor
      · intro hcb
        subst hcb
        have h1 := mem_bracket_fixContractions hc (Or.inl rfl)
        obtain ⟨d, hd, hdl⟩ := List.mem_map.mp h1
        have hdc : d = '[' := toLower_fix (by decide) hdl
        subst hdc
        rcases mem_joinSpace hd with h2 | ⟨t, ht, hct⟩
        · cases h2
        · exact (hwords t (mem_take ht) _ hct).1 rfl
      · intro hcb
        subst hcb
        have h1 := mem_bracket_fixContractions hc (Or.inr rfl)
        obtain ⟨d, hd, hdl⟩ := List.mem_map.mp h1
        have hdc : d = ']' := toLower_fix (by decide) hdl
        subst hdc
        rcases mem_joinSpace hd with h2 | ⟨t, ht, hct⟩
        · cases h2
        · exact (hwords t (mem_take ht) _ hct).2 rfl

theorem injectWindow_false {script : List Char} {fw : List (List Char)}
    {pick : ℕ → ℕ → ℕ} (h : (injectWindow script fw pick).2 = false) :
    injectWindow script fw pick = (script, false) := by
  by_cases h1 : (spokenIdxFrom 0 (findTokens script)).length < 6 * 2 + fw.length
  · exact injectWindow_small h1
  by_cases h2 : (spokenIdxFrom 0 (findTokens script)).length - 6 - fw.length ≤ 6
  · exact injectWindow_edge h1 h2
  · rw [injectWindow_go h1 h2] at h
    cases h

theorem spokenIdxFrom_length (ts : List (List Char)) :
    ∀ i, (spokenIdxFrom i ts).length = ts.countP (fun t => !(t.head? == some '[')) := by
  induction ts with
  | nil => intro i; rfl
  | cons t rest ih =>
    intro i
    by_cases hb : t.head? = some '['
    · rw [spokenIdxFrom, if_pos hb, List.countP_cons]
      simp [hb, ih]
    · rw [spokenIdxFrom, if_neg hb, List.countP_cons]
      have : (!(t.head? == some '[')) = true := by
        simp [hb]
      simp [this, ih]

/-- Claim C4: whenever `inject_nonsense` reports `injected = false` (feature
disabled, probability roll missed, script too short, or window empty), the
returned script is byte-for-byte the input and the returned fragment is
`None`; in particular with `enabled = false` it returns `(S, false, None)`
for every script. -/
theorem C4_noop_when_not_injected
    (script : List Char) (st : NonsenseSettings) (roll : ℚ)
    (model? : Option MarkovModel) (adjust : ℚ → ℚ) (tpick : ℕ → ℕ → ℕ)
    (r0 : ℚ) (rs : ℕ → ℚ) (pick : ℕ → ℕ → ℕ) :
    (∀ out frag?, inject_nonsense script st roll model? adjust tpick r0 rs pick =
        .ok (out, false, frag?) → out = script ∧ frag? = none) ∧
      (st.enabled = false →
        inject_nonsense script st roll model? adjust tpick r0 rs pick =
          .ok (script, false, none)) := by
  constructor
  · intro out frag? h
    unfold inject_nonsense at h
    split at h
    · cases h
      exact ⟨rfl, rfl⟩
    · split at h
      · cases h
        exact ⟨rfl, rfl⟩
      · split at h
        · cases h
        · split at h
          · cases h
          · rename_i fragment hgen
            change (if (injectWindow script (pySplit fragment) pick).2 = true then
                Except.ok ((injectWindow script (pySplit fragment) pick).1, true, some fragment)
              else Except.ok ((injectWindow script (pySplit fragment) pick).1, false, none)) =
              Except.ok (out, false, frag?) at h
            split at h
            · cases h
            · rename_i hres
              cases h
              have hfalse : (injectWindow script (pySplit fragment) pick).2 = false := by
                simpa using hres
              have := injectWindow_false hfalse
              exact ⟨by rw [this], rfl⟩
  · intro h
    unfold inject_nonsense
    rw [if_pos h]

/-- Claim C7: the roulette-wheel sampler is total on nonempty input — for
every nonempty items list with matching weights, every temperature
(abstracted as the weight transform `adjust`, the identity at 1.0) and
every draw, it returns an element of the items list, the last item serving
as the deterministic fallback; and on items `["a", "b"]` with weights
`[1, 3]` and the draw fixed at 0.9 of the total it returns `"b"`. -/
theorem C7_weighted_sampler_total {α : Type} (items : List α)
    (weights : List ℚ) (adjust : ℚ → ℚ) (r01 : ℚ)
    (hne : items ≠ []) (hlen : weights.length = items.length) :
    (∃ a, _pick_weighted items weights adjust r01 = some a ∧ a ∈ items) ∧
      _pick_weighted ["a", "b"] [1, 3] id (9 / 10 : ℚ) = some "b" := by
  refine ⟨pick_weighted_mem weights adjust r01 hne hlen, ?_⟩
  norm_num [_pick_weighted, wheelIdx]

/-- Witness for C7 at a concrete input. -/
theorem C7_weighted_sampler_total_witness :
    (∃ a, _pick_weighted ["x"] [5] id 0 = some a ∧ a ∈ ["x"]) ∧
      _pick_weighted ["a", "b"] [1, 3] id (9 / 10 : ℚ) = some "b" :=
  C7_weighted_sampler_total ["x"] [5] id 0 (by decide) (by decide)

/-- Fuelled structural twin of `findTokens`, used to evaluate the tokenizer
on closed inputs (the well-founded recursion of `findTokens` itself does
not reduce inside the kernel). -/
def findTokensF : ℕ → List Char → List (List Char)
  | 0, _ => []
  | _, [] => []
  | fuel + 1, c :: cs =>
    match matchDirective (c :: cs) with
    | some (tok, rest) => tok :: findTokensF fuel rest
    | none =>
      if pyWS c then findTokensF fuel cs
      else (c :: cs.takeWhile notWS) :: findTokensF fuel (cs.dropWhile notWS)

theorem findTokens_eq_fuel : ∀ (fuel : ℕ) (s : List Char), s.length ≤ fuel →
    findTokensF fuel s = findTokens s := by
  intro fuel
  induction fuel with
  | zero =>
    intro s h
    match s with
    | [] => rw [findTokens_nil]; rfl
    | c :: cs => simp at h
  | succ fuel ih =>
    intro s h
    match s with
    | [] => rw [findTokens_nil]; rfl
    | c :: cs =>
      rcases hm : matchDirective (c :: cs) with _ | ⟨tok, rest⟩
      · by_cases hw : pyWS c
        · rw [findTokens_ws hm hw]
          show (match matchDirective (c :: cs) with
            | some (tok, rest) => tok :: findTokensF fuel rest
            | none => if pyWS c then findTokensF fuel cs
              else (c :: cs.takeWhile notWS) :: findTokensF fuel (cs.dropWhile notWS)) = _
          rw [hm, if_pos hw]
          exact ih cs (by simp at h; omega)
        · rw [findTokens_word hm (by simpa using hw)]
          show (match matchDirective (c :: cs) with
            | some (tok, rest) => tok :: findTokensF fuel rest
            | none => if pyWS c then findTokensF fuel cs
              else (c :: cs.takeWhile notWS) :: findTokensF fuel (cs.dropWhile notWS)) = _
          rw [hm, if_neg hw]
          have hlen : (cs.dropWhile notWS).length ≤ fuel := by
            have := length_dropWhile_le notWS cs
            simp only [List.length_cons] at h
            omega
          rw [ih _ hlen]
      · rw [findTokens_match hm]
        show (match matchDirective (c :: cs) with
          | some (tok, rest) => tok :: findTokensF fuel rest
          | none => if pyWS c then findTokensF fuel cs
            else (c :: cs.takeWhile notWS) :: findTokensF fuel (cs.dropWhile notWS)) = _
        rw [hm]
        have hlen : rest.length ≤ fuel := by
          have h1 := (matchDirective_length hm).1
          have h2 := (matchDirective_length hm).2
          simp only [List.length_cons] at h h1
          omega
        show tok :: findTokensF fuel rest = tok :: findTokens rest
        rw [ih _ hlen]

/-- Fuelled structural twin of `pySplit` for closed evaluation. -/
def pySplitF : ℕ → List Char → List (List Char)
  | 0, _ => []
  | _, [] => []
  | fuel + 1, c :: cs =>
    if pyWS c then pySplitF fuel cs
    else (c :: cs.takeWhile notWS) :: pySplitF fuel (cs.dropWhile notWS)

theorem pySplit_eq_fuel : ∀ (fuel : ℕ) (s : List Char), s.length ≤ fuel →
    pySplitF fuel s = pySplit s := by
  intro fuel
  induction fuel with
  | zero =>
    intro s h
    match s with
    | [] => rw [pySplit_nil]; rfl
    | c :: cs => simp at h
  | succ fuel ih =>
    intro s h
    match s with
    | [] => rw [pySplit_nil]; rfl
    | c :: cs =>
      by_cases hw : pyWS c
      · rw [pySplit_ws hw]
        show (if pyWS c then pySplitF fuel cs
          else (c :: cs.takeWhile notWS) :: pySplitF fuel (cs.dropWhile notWS)) = _
        rw [if_pos hw]
        exact ih cs (by simp at h; omega)
      · rw [pySplit_word (by simpa using hw)]
        show (if pyWS c then pySplitF fuel cs
          else (c :: cs.takeWhile notWS) :: pySplitF fuel (cs.dropWhile notWS)) = _
        rw [if_neg hw]
        have hlen : (cs.dropWhile notWS).length ≤ fuel := by
          have := length_dropWhile_le notWS cs
          simp only [List.length_cons] at h
          omega
        rw [ih _ hlen]

/-- Fuelled structural twin of `subFix` for closed evaluation. -/
def subFixF (p1 p2 : List Char) : ℕ → Bool → List Char → List Char
  | 0, _, _ => []
  | _, _, [] => []
  | fuel + 1, prev, c :: cs =>
    if prev then c :: subFixF p1 p2 fuel (wordChar c) cs
    else
      match tryMatch p1 p2 (c :: cs) with
      | some rest => p1 ++ '\'' :: p2 ++ subFixF p1 p2 fuel true rest
      | none => c :: subFixF p1 p2 fuel (wordChar c) cs

theorem subFix_eq_fuel (p1 p2 : List Char) : ∀ (fuel : ℕ) (prev : Bool)
    (s : List Char), s.length ≤ fuel → subFixF p1 p2 fuel prev s = subFix p1 p2 prev s := by
  intro fuel
  induction fuel with
  | zero =>
    intro prev s h
    match s with
    | [] => rw [subFix_nil]; rfl
    | c :: cs => simp at h
  | succ fuel ih =>
    intro prev s h
    match s with
    | [] => rw [subFix_nil]; rfl
    | c :: cs =>
      match prev with
      | true =>
        rw [subFix_prev]
        show (if true = true then c :: subFixF p1 p2 fuel (wordChar c) cs
          else match tryMatch p1 p2 (c :: cs) with
            | some rest => p1 ++ '\'' :: p2 ++ subFixF p1 p2 fuel true rest
            | none => c :: subFixF p1 p2 fuel (wordChar c) cs) =
          c :: subFix p1 p2 (wordChar c) cs
        rw [if_pos rfl]
        rw [ih _ cs (by simp at h; omega)]
      | false =>
        rcases hm : tryMatch p1 p2 (c :: cs) with _ | rest
        · rw [subFix_miss hm]
          show (if false = true then c :: subFixF p1 p2 fuel (wordChar c) cs
            else match tryMatch p1 p2 (c :: cs) with
              | some rest => p1 ++ '\'' :: p2 ++ subFixF p1 p2 fuel true rest
              | none => c :: subFixF p1 p2 fuel (wordChar c) cs) =
            c :: subFix p1 p2 (wordChar c) cs
          rw [if_neg (by simp), hm]
          rw [ih _ cs (by simp at h; omega)]
        · rw [subFix_hit hm]
          show (if false = true then c :: subFixF p1 p2 fuel (wordChar c) cs
            else match tryMatch p1 p2 (c :: cs) with
              | some rest => p1 ++ '\'' :: p2 ++ subFixF p1 p2 fuel true rest
              | none => c :: subFixF p1 p2 fuel (wordChar c) cs) =
            p1 ++ '\'' :: p2 ++ subFix p1 p2 true rest
          rw [if_neg (by simp), hm]
          have hlen : rest.length ≤ fuel := by
            have := tryMatch_length hm
            simp only [List.length_cons] at h this
            omega
          show p1 ++ '\'' :: p2 ++ subFixF p1 p2 fuel true rest =
            p1 ++ '\'' :: p2 ++ subFix p1 p2 true rest
          rw [ih _ rest hlen]

/-- Fuelled evaluation of the whole contraction table. -/
theorem fixContractions_eq_fuel (fuel : ℕ) (s : List Char) (h : s.length ≤ fuel) :
    FIXES.foldl (fun t f => subFixF f.1 f.2 fuel false t) s = _fix_contractions s := by
  unfold _fix_contractions
  generalize FIXES = fs
  induction fs generalizing s with
  | nil => rfl
  | cons f fs ih =>
    simp only [List.foldl_cons]
    rw [subFix_eq_fuel f.1 f.2 fuel false s h]
    refine ih _ ?_
    have := List.Forall₂.length_eq (subFix_rel f.1 f.2 false s)
    omega

/-- Claim C1: for every script and every settings value, if
`inject_nonsense` returns with `injected = true`, the spoken word count of
the returned script equals the spoken word count of the input script (the
substitution overwrites spoken positions one-for-one and never inserts or
removes tokens).  The model hypothesis is the spec-modelled wellformedness
of the absent `markov_model.json`: its corpus words carry no bracket
characters. -/
theorem C1_spoken_count_invariance
    (script : List Char) (st : NonsenseSettings) (roll : ℚ)
    (model? : Option MarkovModel) (adjust : ℚ → ℚ) (tpick : ℕ → ℕ → ℕ)
    (r0 : ℚ) (rs : ℕ → ℚ) (pick : ℕ → ℕ → ℕ)
    (hm : ∀ mm, model? = some mm → ModelBracketFree mm) :
    ∀ out frag?, inject_nonsense script st roll model? adjust tpick r0 rs pick =
        .ok (out, true, frag?) → spokenCount out = spokenCount script := by
  intro out frag? h
  unfold inject_nonsense at h
  split at h
  · cases h
  · split at h
    · cases h
    · cases model? with
      | none => cases h
      | some mm =>
        have hbf := hm mm rfl
        change (match generate_fragment mm adjust (tpick st.min_fragment st.max_fragment)
              r0 rs with
          | none => Except.error NonsenseError.generationError
          | some fragment =>
            let res := injectWindow script (pySplit fragment) pick
            if res.2 then Except.ok (res.1, true, some fragment)
            else Except.ok (res.1, false, none)) = Except.ok (out, true, frag?) at h
        split at h
        · cases h
        · rename_i fragment hgen
          change (if (injectWindow script (pySplit fragment) pick).2 = true then
              Except.ok ((injectWindow script (pySplit fragment) pick).1, true, some fragment)
            else Except.ok ((injectWindow script (pySplit fragment) pick).1, false, none)) =
            Except.ok (out, true, frag?) at h
          have hgood : ∀ w ∈ pySplit fragment, GoodTok w :=
            goodTok_of_pySplit (generate_fragment_bracketFree hbf hgen)
          split at h
          · cases h
            exact injectWindow_spokenCount hgood
          · cases h

/-- Witness data for the injection claims: a 16-spoken-word script, a
14-spoken-word script, a variant with one directive token, and a
single-starter two-word model with settings that always inject. -/
def wScript16 : List Char :=
  "w1 w2 w3 w4 w5 w6 w7 w8 w9 w10 w11 w12 w13 w14 w15 w16".data

def wScript14 : List Char :=
  "w1 w2 w3 w4 w5 w6 w7 w8 w9 w10 w11 w12 w13 w14".data

def wScriptD : List Char :=
  "w1 w2 w3 [CHYRON: TEST] w4 w5 w6 w7 w8 w9 w10 w11 w12 w13 w14 w15 w16".data

def wModel : MarkovModel :=
  ⟨[[['a', 'a'], ['b', 'b']]], [1], [], []⟩

def wSettings : NonsenseSettings :=
  ⟨true, 1, 2, 2⟩

theorem wModel_gen :
    generate_fragment wModel id 2 0 (fun _ => 0) = some ['a', 'a', ' ', 'b', 'b'] := by
  have h1 : _pick_weighted wModel.s wModel.sw id 0 = some [['a', 'a'], ['b', 'b']] := by
    norm_num [wModel, _pick_weighted, wheelIdx]
  unfold generate_fragment
  rw [h1]
  show some (_fix_contractions
      ((joinSpace ([[ 'a', 'a'], ['b', 'b']].take 2)).map Char.toLower)) = _
  rw [← fixContractions_eq_fuel 8 _ (by decide)]
  decide

theorem wSplitFrag : pySplit ['a', 'a', ' ', 'b', 'b'] = [['a', 'a'], ['b', 'b']] := by
  rw [← pySplit_eq_fuel 8 _ (by decide)]
  decide

theorem wWin16 :
    injectWindow wScript16 [['a', 'a'], ['b', 'b']] (fun lo _ => lo) =
      ("w1 w2 w3 w4 w5 w6 aa bb w9 w10 w11 w12 w13 w14 w15 w16".data, true) := by
  unfold injectWindow
  rw [← findTokens_eq_fuel 60 wScript16 (by decide)]
  decide

theorem wWinD :
    injectWindow wScriptD [['a', 'a'], ['b', 'b']] (fun lo _ => lo) =
      ("w1 w2 w3 [CHYRON: TEST] w4 w5 w6 aa bb w9 w10 w11 w12 w13 w14 w15 w16".data,
        true) := by
  unfold injectWindow
  rw [← findTokens_eq_fuel 80 wScriptD (by decide)]
  decide

theorem wInject16 :
    inject_nonsense wScript16 wSettings 0 (some wModel) id (fun _ _ => 2) 0
        (fun _ => 0) (fun lo _ => lo) =
      .ok ("w1 w2 w3 w4 w5 w6 aa bb w9 w10 w11 w12 w13 w14 w15 w16".data,
        true, some ['a', 'a', ' ', 'b', 'b']) := by
  unfold inject_nonsense
  rw [if_neg (by decide), if_neg (by decide)]
  simp only [wSettings, wModel_gen]
  rw [wSplitFrag, wWin16]
  rfl

theorem wInjectD :
    inject_nonsense wScriptD wSettings 0 (some wModel) id (fun _ _ => 2) 0
        (fun _ => 0) (fun lo _ => lo) =
      .ok ("w1 w2 w3 [CHYRON: TEST] w4 w5 w6 aa bb w9 w10 w11 w12 w13 w14 w15 w16".data,
        true, some ['a', 'a', ' ', 'b', 'b']) := by
  unfold inject_nonsense
  rw [if_neg (by decide), if_neg (by decide)]
  simp only [wSettings, wModel_gen]
  rw [wSplitFrag, wWinD]
  rfl

/-- Witness for C1 at a concrete successful injection. -/
theorem C1_spoken_count_invariance_witness :
    spokenCount "w1 w2 w3 w4 w5 w6 aa bb w9 w10 w11 w12 w13 w14 w15 w16".data =
      spokenCount wScript16 :=
  C1_spoken_count_invariance wScript16 wSettings 0 (some wModel) id
    (fun _ _ => 2) 0 (fun _ => 0) (fun lo _ => lo)
    (fun mm hmm => by cases hmm; unfold ModelBracketFree; decide) _ _ wInject16

/-- Claim C2: for every script, the ordered list of directive-token strings
extracted from the output of `inject_nonsense` equals, verbatim and in the
same relative order, the list extracted from the input, whether or not
injection occurred (with the spec-modelled bracket-free model hypothesis). -/
theorem C2_directive_preservation
    (script : List Char) (st : NonsenseSettings) (roll : ℚ)
    (model? : Option MarkovModel) (adjust : ℚ → ℚ) (tpick : ℕ → ℕ → ℕ)
    (r0 : ℚ) (rs : ℕ → ℚ) (pick : ℕ → ℕ → ℕ)
    (hm : ∀ mm, model? = some mm → ModelBracketFree mm) :
    ∀ out inj frag?, inject_nonsense script st roll model? adjust tpick r0 rs pick =
        .ok (out, inj, frag?) → directiveToks out = directiveToks script := by
  intro out inj frag? h
  unfold inject_nonsense at h
  split at h
  · cases h; rfl
  · split at h
    · cases h; rfl
    · cases model? with
      | none => cases h
      | some mm =>
        have hbf := hm mm rfl
        change (match generate_fragment mm adjust (tpick st.min_fragment st.max_fragment)
              r0 rs with
          | none => Except.error NonsenseError.generationError
          | some fragment =>
            let res := injectWindow script (pySplit fragment) pick
            if res.2 then Except.ok (res.1, true, some fragment)
            else Except.ok (res.1, false, none)) = Except.ok (out, inj, frag?) at h
        split at h
        · cases h
        · rename_i fragment hgen
          change (if (injectWindow script (pySplit fragment) pick).2 = true then
              Except.ok ((injectWindow script (pySplit fragment) pick).1, true, some fragment)
            else Except.ok ((injectWindow script (pySplit fragment) pick).1, false, none)) =
            Except.ok (out, inj, frag?) at h
          have hgood : ∀ w ∈ pySplit fragment, GoodTok w :=
            goodTok_of_pySplit (generate_fragment_bracketFree hbf hgen)
          split at h
          · cases h
            exact injectWindow_directives hgood
          · cases h
            exact injectWindow_directives hgood

/-- Witness for C2 at a concrete injection through a directive token. -/
theorem C2_directive_preservation_witness :
    directiveToks
        "w1 w2 w3 [CHYRON: TEST] w4 w5 w6 aa bb w9 w10 w11 w12 w13 w14 w15 w16".data =
      directiveToks wScriptD :=
  C2_directive_preservation wScriptD wSettings 0 (some wModel) id
    (fun _ _ => 2) 0 (fun _ => 0) (fun lo _ => lo)
    (fun mm hmm => by cases hmm; unfold ModelBracketFree; decide) _ _ _ wInjectD

theorem wWin14 :
    injectWindow wScript14 [['a', 'a'], ['b', 'b']] (fun lo _ => lo) =
      (wScript14, false) := by
  unfold injectWindow
  rw [← findTokens_eq_fuel 60 wScript14 (by decide)]
  decide

/-- Counterexample to claim C3: a 14-spoken-word script with a 2-word
fragment has spoken count exactly `2*margin + fragLen` and a nonempty
start range `[6, 6]`, yet the injector aborts with `injected = false`,
because the code tests `hi <= lo` and `random.randint(6, 6)` would have
been a valid one-point range. -/
theorem C3_injection_window_counterexample :
    spokenCount wScript14 = 2 * 6 + 2 ∧
      (6 : ℕ) ≤ spokenCount wScript14 - 6 - 2 ∧
      inject_nonsense wScript14 wSettings 0 (some wModel) id (fun _ _ => 2) 0
          (fun _ => 0) (fun lo _ => lo) = .ok (wScript14, false, none) := by
  refine ⟨?_, ?_, ?_⟩
  · unfold spokenCount
    rw [← findTokens_eq_fuel 60 wScript14 (by decide)]
    decide
  · unfold spokenCount
    rw [← findTokens_eq_fuel 60 wScript14 (by decide)]
    decide
  · unfold inject_nonsense
    rw [if_neg (by decide), if_neg (by decide)]
    simp only [wSettings, wModel_gen]
    rw [wSplitFrag, wWin14]
    rfl

/-- Amended C3: the window proceeds exactly when the spoken count strictly
exceeds `2*margin + fragLen` (the boundary case `spokenCount = 2*margin +
fragLen`, whose start range `[margin, margin]` is nonempty, also aborts);
when it proceeds, a `randint`-contract pick lies in the closed range
`[margin, spokenCount - margin - fragLen]`, and a 30-spoken-word script
with fragLen 3 gives the range `[6, 21]`. -/
theorem C3_injection_window_amended
    (script : List Char) (fw : List (List Char)) (pick : ℕ → ℕ → ℕ)
    (hpick : ∀ lo hi, lo ≤ hi → lo ≤ pick lo hi ∧ pick lo hi ≤ hi) :
    ((injectWindow script fw pick).2 = true ↔
        2 * 6 + fw.length < spokenCount script) ∧
      (2 * 6 + fw.length < spokenCount script →
        6 ≤ pick 6 (spokenCount script - 6 - fw.length) ∧
          pick 6 (spokenCount script - 6 - fw.length) ≤
            spokenCount script - 6 - fw.length) ∧
      (spokenCount script = 30 ∧ fw.length = 3 →
        spokenCount script - 6 - fw.length = 21 ∧
          6 ≤ pick 6 21 ∧ pick 6 21 ≤ 21) := by
  have hsc : (spokenIdxFrom 0 (findTokens script)).length = spokenCount script :=
    spokenIdxFrom_length _ 0
  refine ⟨?_, ?_, ?_⟩
  · by_cases h1 : (spokenIdxFrom 0 (findTokens script)).length < 6 * 2 + fw.length
    · rw [injectWindow_small h1]
      show false = true ↔ _
      simp only [Bool.false_eq_true, false_iff]
      omega
    · by_cases h2 : (spokenIdxFrom 0 (findTokens script)).length - 6 - fw.length ≤ 6
      · rw [injectWindow_edge h1 h2]
        show false = true ↔ _
        simp only [Bool.false_eq_true, false_iff]
        omega
      · rw [injectWindow_go h1 h2]
        show true = true ↔ _
        simp only [true_iff]
        omega
  · intro hgt
    exact hpick 6 (spokenCount script - 6 - fw.length) (by omega)
  · intro ⟨h30, h3⟩
    refine ⟨by omega, ?_⟩
    exact hpick 6 21 (by omega)

/-- Witness for the amended C3 at a concrete script and pick. -/
theorem C3_injection_window_amended_witness :
    (∀ lo hi : ℕ, lo ≤ hi → lo ≤ (fun lo _ => lo) lo hi ∧
        (fun lo _ => lo) lo hi ≤ hi) ∧
      (((injectWindow wScript16 [['a', 'a'], ['b', 'b']] (fun lo _ => lo)).2 = true ↔
          2 * 6 + ([['a', 'a'], ['b', 'b']] : List (List Char)).length <
            spokenCount wScript16) ∧
        (2 * 6 + ([['a', 'a'], ['b', 'b']] : List (List Char)).length <
            spokenCount wScript16 →
          6 ≤ (fun lo _ => lo) 6 (spokenCount wScript16 - 6 -
              ([['a', 'a'], ['b', 'b']] : List (List Char)).length) ∧
            (fun lo _ => lo) 6 (spokenCount wScript16 - 6 -
                ([['a', 'a'], ['b', 'b']] : List (List Char)).length) ≤
              spokenCount wScript16 - 6 -
                ([['a', 'a'], ['b', 'b']] : List (List Char)).length) ∧
        (spokenCount wScript16 = 30 ∧
            ([['a', 'a'], ['b', 'b']] : List (List Char)).length = 3 →
          spokenCount wScript16 - 6 -
              ([['a', 'a'], ['b', 'b']] : List (List Char)).length = 21 ∧
            6 ≤ (fun lo _ => lo) 6 21 ∧ (fun lo _ => lo) 6 21 ≤ 21)) :=
  ⟨fun lo _ h => ⟨Nat.le_refl lo, h⟩,
    C3_injection_window_amended wScript16 [['a', 'a'], ['b', 'b']] (fun lo _ => lo)
      (fun lo _ h => ⟨Nat.le_refl lo, h⟩)⟩

/-- Counterexample to claim C5: `generate_script` (src/agents/writer.py
lines 256-260) calls `inject_nonsense` with no surrounding try/except, so
when the model resource is missing and the gate passes, the nonsense step
of the writer surfaces the `ModelUnavailable` failure instead of catching
it: the pipeline step errors rather than continuing. -/
theorem C5_model_failure_counterexample :
    writer_nonsense_step wScript16 wSettings 0 none id (fun _ _ => 2) 0
        (fun _ => 0) (fun lo _ => lo) = .error .modelUnavailable ∧
      ∀ out, writer_nonsense_step wScript16 wSettings 0 none id (fun _ _ => 2) 0
          (fun _ => 0) (fun lo _ => lo) ≠ .ok out := by
  refine ⟨rfl, ?_⟩
  intro out h
  cases h

/-- Amended C5: with the model unavailable, the writer's nonsense step
returns the script untouched when the feature is disabled or the roll
misses, and otherwise propagates `ModelUnavailable` out of
`generate_script` uncaught. -/
theorem C5_model_failure_amended
    (script : List Char) (st : NonsenseSettings) (roll : ℚ)
    (adjust : ℚ → ℚ) (tpick : ℕ → ℕ → ℕ) (r0 : ℚ) (rs : ℕ → ℚ)
    (pick : ℕ → ℕ → ℕ) :
    (st.enabled = true → roll ≤ st.injection_chance →
      writer_nonsense_step script st roll none adjust tpick r0 rs pick =
        .error .modelUnavailable) ∧
      (st.enabled = false ∨ st.injection_chance < roll →
        writer_nonsense_step script st roll none adjust tpick r0 rs pick =
          .ok script) := by
  constructor
  · intro hen hroll
    unfold writer_nonsense_step inject_nonsense
    rw [if_neg (by simp [hen]), if_neg (not_lt.mpr hroll)]
    rfl
  · intro h
    unfold writer_nonsense_step inject_nonsense
    rcases h with h | h
    · rw [if_pos h]
      rfl
    · by_cases he : st.enabled = false
      · rw [if_pos he]
        rfl
      · rw [if_neg he, if_pos h]
        rfl

/-- Claim C6: the heavy injection mode (spec-modelled
`inject_heavy_nonsense`, the entry point `src/main.py` imports and calls
with `target_ratio=0.80`) is the normal primitive under a different
parameterization: it equals the shared eligibility-window-and-substitution
step `injectWindow` applied to a fragment whose requested length is the
target ratio of the spoken word count, paired with that fragment. -/
theorem C6_heavy_mode_refinement
    (script : List Char) (target_ratio : ℚ) (genFrag : ℕ → List Char)
    (pick : ℕ → ℕ → ℕ) :
    inject_heavy_nonsense script target_ratio genFrag pick =
      ((injectWindow script
          (pySplit (genFrag
            (⌊target_ratio * ((spokenIdxFrom 0 (findTokens script)).length : ℚ)⌋.toNat)))
          pick).1,
        genFrag
          (⌊target_ratio * ((spokenIdxFrom 0 (findTokens script)).length : ℚ)⌋.toNat)) := by
  simp only [inject_heavy_nonsense, injectWindow]
  by_cases h1 : (spokenIdxFrom 0 (findTokens script)).length <
      6 * 2 + (pySplit (genFrag
        (⌊target_ratio * ((spokenIdxFrom 0 (findTokens script)).length : ℚ)⌋.toNat))).length
  · rw [if_pos h1, if_pos h1]
  · rw [if_neg h1, if_neg h1]
    by_cases h2 : (spokenIdxFrom 0 (findTokens script)).length - 6 -
        (pySplit (genFrag
          (⌊target_ratio * ((spokenIdxFrom 0 (findTokens script)).length : ℚ)⌋.toNat))).length ≤ 6
    · rw [if_pos h2, if_pos h2]
    · rw [if_neg h2, if_neg h2]

theorem dropWhile_idem (p : Char → Bool) (l : List Char) :
    (l.dropWhile p).dropWhile p = l.dropWhile p := by
  cases hd : l.dropWhile p with
  | nil => rfl
  | cons c cs =>
    have hc : p c = false := dropWhile_head_false hd
    rw [List.dropWhile_cons_of_neg (by simp [hc])]

theorem rstripPunct_idem (w : List Char) :
    rstripPunct (rstripPunct w) = rstripPunct w := by
  unfold rstripPunct
  rw [List.reverse_reverse, dropWhile_idem]

theorem rstripPunct_getLast {w : List Char} {c : Char} (hfix : rstripPunct w = w)
    (hl : w.getLast? = some c) : ¬(c = '.' ∨ c = '!' ∨ c = '?' ∨ c = '…') := by
  intro hp
  have h1 : w.reverse.head? = some c := by
    rw [List.head?_reverse]
    exact hl
  cases hw : w.reverse with
  | nil => rw [hw] at h1; cases h1
  | cons d t =>
    rw [hw] at h1
    have hd : d = c := by cases h1; rfl
    subst hd
    have hpc : (d = '.' || d = '!' || d = '?' || d = '…') = true := by
      rcases hp with h | h | h | h <;> simp [h]
    have hlen : (rstripPunct w).length = w.length := by rw [hfix]
    unfold rstripPunct at hlen
    have hdw := List.dropWhile_cons_of_pos
      (p := fun c => c = '.' || c = '!' || c = '?' || c = '…') (l := t) (a := d) hpc
    rw [hw, hdw] at hlen
    have h2 := length_dropWhile_le (fun c => c = '.' || c = '!' || c = '?' || c = '…') t
    have h3 : w.length = t.length + 1 := by
      have := congrArg List.length hw
      simpa using this
    simp only [List.length_reverse] at hlen
    omega

theorem pySplit_prepend {w r : List Char} (hne : w ≠ [])
    (hnw : ∀ c ∈ w, pyWS c = false) :
    pySplit (w ++ r) = (w ++ r.takeWhile notWS) :: pySplit (r.dropWhile notWS) := by
  match w, hne with
  | c :: cs, _ =>
    have hc : pyWS c = false := hnw c (by simp)
    rw [List.cons_append, pySplit_word hc]
    have hcs : ∀ x ∈ cs, notWS x = true := fun x hx => by
      simp [notWS, hnw x (List.mem_cons_of_mem _ hx)]
    obtain ⟨ht, hd⟩ := span_append (p := notWS) r hcs
    rw [ht, hd]
    simp

theorem pySplit_joinSpace {ws : List (List Char)}
    (h : ∀ w ∈ ws, w ≠ [] ∧ ∀ c ∈ w, pyWS c = false) :
    pySplit (joinSpace ws) = ws := by
  induction ws with
  | nil => exact pySplit_nil
  | cons w ts ih =>
    obtain ⟨hne, hnw⟩ := h w (by simp)
    match ts with
    | [] =>
      show pySplit w = [w]
      have := pySplit_prepend (r := []) hne hnw
      simpa [pySplit_nil] using this
    | u :: ts' =>
      show pySplit (w ++ ' ' :: joinSpace (u :: ts')) = w :: u :: ts'
      rw [pySplit_prepend hne hnw]
      have hsp : notWS ' ' = false := by decide
      rw [List.takeWhile_cons, if_neg (by simp [hsp])]
      rw [List.dropWhile_cons_of_neg (by simp [hsp])]
      rw [pySplit_ws (by decide)]
      rw [ih (fun x hx => h x (List.mem_cons_of_mem _ hx))]
      simp

theorem joinSpace_map_toLower (ws : List (List Char)) :
    (joinSpace ws).map Char.toLower =
      joinSpace (ws.map (fun w => w.map Char.toLower)) := by
  induction ws with
  | nil => rfl
  | cons w ts ih =>
    cases ts with
    | nil => rfl
    | cons u ts' =>
      show (w ++ ' ' :: joinSpace (u :: ts')).map Char.toLower =
        w.map Char.toLower ++ ' ' ::
          joinSpace ((u :: ts').map (fun w => w.map Char.toLower))
      rw [List.map_append, List.map_cons, ih]
      rfl

theorem getLast?_append_ne {α : Type} {l2 : List α} (l1 : List α) (h : l2 ≠ []) :
    (l1 ++ l2).getLast? = l2.getLast? := by
  induction l1 with
  | nil => rfl
  | cons x xs ih =>
    have hne : xs ++ l2 ≠ [] := by
      intro he
      exact h (List.append_eq_nil.mp he).2
    cases hx : xs ++ l2 with
    | nil => exact absurd hx hne
    | cons y ys =>
      show (x :: (xs ++ l2)).getLast? = l2.getLast?
      rw [hx, List.getLast?_cons_cons, ← hx, ih]

theorem joinSpace_getLast {ws : List (List Char)} {w : List Char}
    (h : ws.getLast? = some w) (hne : w ≠ []) :
    (joinSpace ws).getLast? = w.getLast? := by
  induction ws with
  | nil => cases h
  | cons t ts ih =>
    cases ts with
    | nil =>
      have ht : t = w := by
        simpa using h
      subst ht
      rfl
    | cons u ts' =>
      have h' : (u :: ts').getLast? = some w := by
        rw [← h]
        rfl
      have hxl : (joinSpace (u :: ts')).getLast? = w.getLast? := ih h'
      obtain ⟨c, hc⟩ : ∃ c, w.getLast? = some c := by
        cases hw : w.getLast? with
        | none => exact absurd (List.getLast?_eq_none_iff.mp hw) hne
        | some c => exact ⟨c, rfl⟩
      have hX : joinSpace (u :: ts') ≠ [] := by
        intro he
        rw [he, hc] at hxl
        cases hxl
      show (t ++ ' ' :: joinSpace (u :: ts')).getLast? = w.getLast?
      rw [getLast?_append_ne t (by simp)]
      cases hJ : joinSpace (u :: ts') with
      | nil => exact absurd hJ hX
      | cons x xs =>
        rw [hJ] at hxl
        rw [List.getLast?_cons_cons]
        exact hxl

theorem forall₂_getLast {α : Type} {R : α → α → Prop} {s t : List α} {a : α}
    (h : List.Forall₂ R s t) (hl : s.getLast? = some a) :
    ∃ b, t.getLast? = some b ∧ R a b := by
  induction h with
  | nil => cases hl
  | cons hr hrest ih =>
    rename_i x y xs ys
    cases hrest with
    | nil =>
      have hx : a = x := by
        have : some x = some a := hl
        cases this
        rfl
      subst hx
      exact ⟨y, rfl, hr⟩
    | cons hr2 hrest2 =>
      rename_i x2 y2 xs2 ys2
      rw [List.getLast?_cons_cons] at hl
      obtain ⟨b, hb, hR⟩ := ih hl
      rw [List.getLast?_cons_cons]
      exact ⟨b, hb, hR⟩

theorem map_eq_append_cons {f : Char → Char} {u p1 p2 : List Char} {m : Char}
    (h : u.map f = p1 ++ m :: p2) :
    ∃ a b c, u = a ++ b :: c ∧ a.map f = p1 ∧ f b = m ∧ c.map f = p2 := by
  induction p1 generalizing u with
  | nil =>
    match u with
    | [] => simp at h
    | x :: xs =>
      simp only [List.map_cons, List.nil_append, List.cons.injEq] at h
      exact ⟨[], x, xs, rfl, rfl, h.1, h.2⟩
  | cons q qs ih =>
    match u with
    | [] => simp at h
    | x :: xs =>
      simp only [List.map_cons, List.cons_append, List.cons.injEq] at h
      obtain ⟨a, b, c, rfl, h1, h2, h3⟩ := ih h.2
      exact ⟨x :: a, b, c, rfl, by simp [h.1, h1], h2, h3⟩

theorem toLower_not_upper (c : Char) :
    ¬(65 ≤ (Char.toLower c).toNat ∧ (Char.toLower c).toNat ≤ 90) := by
  rcases toLower_spec c with ⟨hn, he⟩ | ⟨h1, h2, he⟩
  · rw [he]
    exact hn
  · omega

/-- Word-start scanner: counts the words of a string the way `str.split()`
does, tracking whether the previous character was inside a word. -/
def cwAux : Bool → List Char → ℕ
  | _, [] => 0
  | prev, c :: cs =>
    (if prev = false ∧ pyWS c = false then 1 else 0) + cwAux (!pyWS c) cs

theorem cwAux_skip (s : List Char) :
    cwAux true s = cwAux false (s.dropWhile notWS) := by
  induction s with
  | nil => rfl
  | cons c cs ih =>
    by_cases hc : pyWS c
    · rw [List.dropWhile_cons_of_neg (by simp [notWS, hc])]
      simp only [cwAux, hc]
      simp
    · have hc' : pyWS c = false := by simpa using hc
      rw [List.dropWhile_cons_of_pos (by simp [notWS, hc'])]
      simp only [cwAux, hc']
      simp [ih]

theorem pySplit_length_cw (s : List Char) :
    (pySplit s).length = cwAux false s := by
  induction s using pySplit.induct with
  | case1 =>
    rw [pySplit_nil]
    rfl
  | case2 c cs hw ih =>
    rw [pySplit_ws hw]
    simp only [cwAux, hw]
    simpa using ih
  | case3 c cs hw ih =>
    have hw' : pyWS c = false := by simpa using hw
    rw [pySplit_word hw']
    simp only [cwAux, hw', List.length_cons]
    rw [ih, ← cwAux_skip]
    simp [Nat.add_comm]

/-- The shape of one pass of a contraction rewrite over a string: characters
are copied (possibly case-folded in place, which the count never sees), or a
matched `word space word` span is replaced by a single nonempty
whitespace-free run. -/
inductive MergeRel : List Char → List Char → Prop
  | nil : MergeRel [] []
  | cons (c : Char) {s t : List Char} : MergeRel s t → MergeRel (c :: s) (c :: t)
  | splice {u1 u2 v s t : List Char} (hu1 : u1 ≠ []) (hu2 : u2 ≠ [])
      (hv : v ≠ []) (hw1 : ∀ c ∈ u1, pyWS c = false)
      (hw2 : ∀ c ∈ u2, pyWS c = false) (hwv : ∀ c ∈ v, pyWS c = false) :
      MergeRel s t → MergeRel (u1 ++ ' ' :: u2 ++ s) (v ++ t)

theorem cwAux_nonws_append {w : List Char} (r : List Char) (prev : Bool)
    (hne : w ≠ []) (hnw : ∀ c ∈ w, pyWS c = false) :
    cwAux prev (w ++ r) = (if prev = false then 1 else 0) + cwAux true r := by
  induction w generalizing prev with
  | nil => exact absurd rfl hne
  | cons c cs ih =>
    have hc : pyWS c = false := hnw c (by simp)
    rw [List.cons_append]
    simp only [cwAux, hc, Bool.not_false]
    cases cs with
    | nil =>
      simp only [List.nil_append]
      cases prev <;> simp
    | cons c2 cs2 =>
      rw [ih true (by simp) (fun x hx => hnw x (List.mem_cons_of_mem _ hx))]
      cases prev <;> simp

theorem mergeRel_count {s t : List Char} (h : MergeRel s t) :
    ∀ prev, cwAux prev t ≤ cwAux prev s := by
  induction h with
  | nil =>
    intro prev
    exact Nat.le_refl 0
  | cons c hmr ih =>
    intro prev
    simp only [cwAux]
    exact Nat.add_le_add_left (ih (!pyWS c)) _
  | splice hu1 hu2 hv hw1 hw2 hwv hmr ih =>
    intro prev
    rename_i u1 u2 v s' t'
    rw [cwAux_nonws_append t' prev hv hwv]
    have hre : u1 ++ ' ' :: u2 ++ s' = u1 ++ (' ' :: (u2 ++ s')) := by simp
    rw [hre, cwAux_nonws_append (' ' :: (u2 ++ s')) prev hu1 hw1]
    have hsp : pyWS ' ' = true := by decide
    simp only [cwAux, hsp, Bool.not_true]
    rw [cwAux_nonws_append s' false hu2 hw2]
    have := ih true
    simp only [if_pos rfl, Bool.not_true]
    omega

theorem mergeRel_witness {s t : List Char} (h : MergeRel s t)
    (hw : ∃ c ∈ s, pyWS c = false) : ∃ c ∈ t, pyWS c = false := by
  induction h with
  | nil =>
    obtain ⟨c, hc, _⟩ := hw
    cases hc
  | cons c hmr ih =>
    obtain ⟨d, hd, hdw⟩ := hw
    rcases List.mem_cons.mp hd with rfl | hd'
    · exact ⟨d, by simp, hdw⟩
    · obtain ⟨e, he, hew⟩ := ih ⟨d, hd', hdw⟩
      exact ⟨e, List.mem_cons_of_mem _ he, hew⟩
  | splice hu1 hu2 hv hw1 hw2 hwv hmr ih =>
    rename_i u1 u2 v s' t'
    match v, hv with
    | c :: _, _ =>
      exact ⟨c, by simp, hwv c (by simp)⟩

theorem cwAux_pos {s : List Char} (hw : ∃ c ∈ s, pyWS c = false) :
    1 ≤ cwAux false s := by
  induction s with
  | nil =>
    obtain ⟨c, hc, _⟩ := hw
    cases hc
  | cons c cs ih =>
    by_cases hc : pyWS c
    · obtain ⟨d, hd, hdw⟩ := hw
      rcases List.mem_cons.mp hd with rfl | hd'
      · rw [hc] at hdw
        cases hdw
      · simp only [cwAux, hc]
        have := ih ⟨d, hd', hdw⟩
        simpa using this
    · have hc' : pyWS c = false := by simpa using hc
      simp only [cwAux, hc']
      simp

theorem subFix_mergeRel {p1 p2 : List Char} (hp1 : p1 ≠ []) (hp2 : p2 ≠ [])
    (hw1 : ∀ c ∈ p1, pyWS c = false) (hw2 : ∀ c ∈ p2, pyWS c = false) :
    ∀ (prev : Bool) (s : List Char), MergeRel s (subFix p1 p2 prev s) := by
  intro prev s
  induction prev, s using subFix.induct p1 p2 with
  | case1 prev =>
    rw [subFix_nil]
    exact MergeRel.nil
  | case2 c cs ih =>
    rw [subFix_prev]
    exact MergeRel.cons c ih
  | case3 prev c cs hprev rest hm ih =>
    have hp : prev = false := by simpa using hprev
    subst hp
    rw [subFix_hit hm]
    obtain ⟨u, hs, hu⟩ := tryMatch_decomp hm
    obtain ⟨a, b, d, hud, ha, hb, hd⟩ := map_eq_append_cons hu
    have hb' : b = ' ' := toLower_fix (by decide) hb
    subst hb'
    have hane : a ≠ [] := by
      intro he
      subst he
      simp only [List.map_nil] at ha
      exact hp1 ha.symm
    have hdne : d ≠ [] := by
      intro he
      subst he
      simp only [List.map_nil] at hd
      exact hp2 hd.symm
    have hanw : ∀ x ∈ a, pyWS x = false := by
      intro x hx
      have hm1 : Char.toLower x ∈ p1 := ha ▸ List.mem_map_of_mem _ hx
      rw [← pyWS_toLower x]
      exact hw1 _ hm1
    have hdnw : ∀ x ∈ d, pyWS x = false := by
      intro x hx
      have hm2 : Char.toLower x ∈ p2 := hd ▸ List.mem_map_of_mem _ hx
      rw [← pyWS_toLower x]
      exact hw2 _ hm2
    have hvne : (p1 ++ '\'' :: p2) ≠ [] := by simp
    have hvnw : ∀ x ∈ p1 ++ '\'' :: p2, pyWS x = false := by
      intro x hx
      rcases List.mem_append.mp hx with h | h
      · exact hw1 x h
      · rcases List.mem_cons.mp h with rfl | h'
        · decide
        · exact hw2 x h'
    rw [hs, hud]
    have hsp := MergeRel.splice hane hdne hvne hanw hdnw hvnw ih
    simpa using hsp
  | case4 prev c cs hprev hm ih =>
    have hp : prev = false := by simpa using hprev
    subst hp
    rw [subFix_miss hm]
    exact MergeRel.cons c ih

/-- Each row of the contraction table is a pair of nonempty
whitespace-free pattern words. -/
def RowOk (f : List Char × List Char) : Prop :=
  f.1 ≠ [] ∧ f.2 ≠ [] ∧ (∀ c ∈ f.1, pyWS c = false) ∧ (∀ c ∈ f.2, pyWS c = false)

theorem fixes_rowOk : ∀ f ∈ FIXES, RowOk f := by
  unfold FIXES RowOk
  decide

theorem fixContractions_count (s : List Char) :
    (pySplit (_fix_contractions s)).length ≤ (pySplit s).length := by
  unfold _fix_contractions
  have h := fixes_rowOk
  revert h
  generalize FIXES = fs
  intro h
  induction fs generalizing s with
  | nil => simp
  | cons f fs ih =>
    simp only [List.foldl_cons]
    obtain ⟨h1a, h1b, h1c, h1d⟩ := h f (by simp)
    have step : (pySplit (subFix f.1 f.2 false s)).length ≤ (pySplit s).length := by
      rw [pySplit_length_cw, pySplit_length_cw]
      exact mergeRel_count (subFix_mergeRel h1a h1b h1c h1d false s) false
    exact Nat.le_trans (ih (subFix f.1 f.2 false s)
      (fun g hg => h g (List.mem_cons_of_mem _ hg))) step

theorem fixContractions_nonws (s : List Char) (hw : ∃ c ∈ s, pyWS c = false) :
    ∃ c ∈ _fix_contractions s, pyWS c = false := by
  unfold _fix_contractions
  have h := fixes_rowOk
  revert h hw
  generalize FIXES = fs
  intro hw h
  induction fs generalizing s with
  | nil => exact hw
  | cons f fs ih =>
    simp only [List.foldl_cons]
    obtain ⟨h1a, h1b, h1c, h1d⟩ := h f (by simp)
    exact ih (subFix f.1 f.2 false s)
      (mergeRel_witness (subFix_mergeRel h1a h1b h1c h1d false s) hw)
      (fun g hg => h g (List.mem_cons_of_mem _ hg))

theorem extendLoop_total (m : MarkovModel) (adjust : ℚ → ℚ) (rs : ℕ → ℚ) :
    ∀ (fuel k : ℕ) (words : List (List Char)), words ≠ [] →
      ∃ out, extendLoop m adjust rs fuel k words = some out ∧ out ≠ [] ∧
        ∀ w ∈ out, w ∈ words ∨
          ∃ nw, w = rstripPunct nw ∧ w ≠ [] ∧
            ((∃ kv ∈ m.c1, ∃ q, (nw, q) ∈ kv.2) ∨
              (∃ kv ∈ m.c2, ∃ q, (nw, q) ∈ kv.2)) := by
  intro fuel
  induction fuel with
  | zero =>
    intro k words hne
    exact ⟨words, rfl, hne, fun w hw => Or.inl hw⟩
  | succ fuel ih =>
    intro k words hne
    obtain ⟨l, hl⟩ : ∃ l, words.getLast? = some l := by
      cases hgl : words.getLast? with
      | none => exact absurd (List.getLast?_eq_none_iff.mp hgl) hne
      | some l => exact ⟨l, rfl⟩
    have hred : extendLoop m adjust rs (fuel + 1) k words =
        (match chainOptions m words with
         | none => some words
         | some opts =>
           match _pick_from_options opts adjust (rs k) with
           | none => some words
           | some nw =>
             if nw = [] then some words
             else if rstripPunct nw = [] then some words
             else extendLoop m adjust rs fuel (k + 1) (words ++ [rstripPunct nw])) := by
      simp only [extendLoop]
      rw [hl]
    cases hco : chainOptions m words with
    | none =>
      refine ⟨words, ?_, hne, fun w hw => Or.inl hw⟩
      rw [hred, hco]
    | some opts =>
      cases hpo : _pick_from_options opts adjust (rs k) with
      | none =>
        refine ⟨words, ?_, hne, fun w hw => Or.inl hw⟩
        rw [hred, hco]
        show (match _pick_from_options opts adjust (rs k) with
          | none => some words
          | some nw =>
            if nw = [] then some words
            else if rstripPunct nw = [] then some words
            else extendLoop m adjust rs fuel (k + 1)
              (words ++ [rstripPunct nw])) = some words
        rw [hpo]
      | some nw =>
        have hfin : ∀ (r : Option (List (List Char))),
            (if nw = [] then some words
              else if rstripPunct nw = [] then some words
              else extendLoop m adjust rs fuel (k + 1)
                (words ++ [rstripPunct nw])) = r →
            extendLoop m adjust rs (fuel + 1) k words = r := by
          intro r hr
          rw [hred, hco]
          show (match _pick_from_options opts adjust (rs k) with
            | none => some words
            | some nw =>
              if nw = [] then some words
              else if rstripPunct nw = [] then some words
              else extendLoop m adjust rs fuel (k + 1)
                (words ++ [rstripPunct nw])) = r
          rw [hpo]
          exact hr
        by_cases hnw : nw = []
        · exact ⟨words, hfin _ (if_pos hnw), hne, fun w hw => Or.inl hw⟩
        · by_cases hcl : rstripPunct nw = []
          · refine ⟨words, hfin _ ?_, hne, fun w hw => Or.inl hw⟩
            rw [if_neg hnw, if_pos hcl]
          · obtain ⟨out, heq, hone, hmem⟩ := ih (k + 1) (words ++ [rstripPunct nw])
              (by simp)
            refine ⟨out, hfin _ ?_, hone, ?_⟩
            · rw [if_neg hnw, if_neg hcl]
              exact heq
            · intro w hw
              rcases hmem w hw with hin | hex
              · rcases List.mem_append.mp hin with h1 | h2
                · exact Or.inl h1
                · have hwc : w = rstripPunct nw := by simpa using h2
                  subst hwc
                  obtain ⟨q, hq⟩ := pick_from_options_mem hpo
                  rcases chainOptions_mem hco with ⟨k', hk⟩ | ⟨k', hk⟩
                  · exact Or.inr ⟨nw, rfl, hcl, Or.inl ⟨(k', opts), hk, q, hq⟩⟩
                  · exact Or.inr ⟨nw, rfl, hcl, Or.inr ⟨(k', opts), hk, q, hq⟩⟩
              · exact Or.inr hex

/-- Modelled from the spec: wellformedness of the corpus data in the absent
`markov_model.json` (§3 of the spec) — at least one starter pair, one
weight per starter, every starter word a nonempty whitespace-free word
with no trailing sentence punctuation, and every chain candidate word
whitespace-free. -/
def WfModel (m : MarkovModel) : Prop :=
  m.s ≠ [] ∧ m.sw.length = m.s.length ∧
    (∀ st ∈ m.s, st ≠ [] ∧ ∀ w ∈ st, w ≠ [] ∧ (∀ c ∈ w, pyWS c = false) ∧
      rstripPunct w = w) ∧
    (∀ kv ∈ m.c1, ∀ ow ∈ kv.2, ∀ c ∈ ow.1, pyWS c = false) ∧
    (∀ kv ∈ m.c2, ∀ ow ∈ kv.2, ∀ c ∈ ow.1, pyWS c = false)

theorem getLast?_map {α β : Type} (f : α → β) (l : List α) :
    (l.map f).getLast? = l.getLast?.map f := by
  induction l with
  | nil => rfl
  | cons a l ih =>
    cases l with
    | nil => rfl
    | cons b l2 =>
      rw [List.map_cons, List.getLast?_cons_cons]
      rw [show ((b :: l2).getLast? ).map f = ((a :: b :: l2).getLast?).map f from by
        rw [List.getLast?_cons_cons]]
      exact ih

def wModelP : MarkovModel := ⟨[[['a'], ['b', '.']]], [1], [], []⟩

def wModelE : MarkovModel := ⟨[[]], [1], [], []⟩

def wModelN : MarkovModel := ⟨[], [], [], []⟩

def wModelW : MarkovModel := ⟨[[['a'], ['b']]], [1], [], []⟩

/-- Counterexample to claim C8: starter words are copied into the fragment
without the punctuation strip that chain words get (`rstrip(".!?…")` runs
only on continuation words, src/agents/nonsense.py line 131), so a model
whose starter pair ends in `b.` produces the fragment `a b.` with a
trailing period on its final word. -/
theorem C8_fragment_shape_counterexample :
    generate_fragment wModelP id 2 0 (fun _ => 0) = some ['a', ' ', 'b', '.'] ∧
      ['a', ' ', 'b', '.'].getLast? = some '.' := by
  refine ⟨?_, rfl⟩
  have h1 : _pick_weighted wModelP.s wModelP.sw id 0 = some [['a'], ['b', '.']] := by
    norm_num [wModelP, _pick_weighted, wheelIdx]
  unfold generate_fragment
  rw [h1]
  show some (_fix_contractions
      ((joinSpace ([[ 'a'], ['b', '.']].take 2)).map Char.toLower)) = _
  rw [← fixContractions_eq_fuel 8 _ (by decide)]
  decide

/-- Amended C8: on a wellformed model (spec-modelled `WfModel`: nonempty
starters of nonempty whitespace-free words with no trailing sentence
punctuation, whitespace-free chain words) and a positive target length,
`generate_fragment` succeeds and its fragment has between 1 and
`targetLen` words, no uppercase A-Z character, and no trailing `.`, `!`,
`?`, `…` on its final character. -/
theorem C8_fragment_shape_amended (m : MarkovModel) (adjust : ℚ → ℚ)
    (targetLen : ℕ) (r0 : ℚ) (rs : ℕ → ℚ)
    (hwf : WfModel m) (htl : 1 ≤ targetLen) :
    ∃ frag, generate_fragment m adjust targetLen r0 rs = some frag ∧
      1 ≤ (pySplit frag).length ∧ (pySplit frag).length ≤ targetLen ∧
      (∀ c ∈ frag, ¬(65 ≤ c.toNat ∧ c.toNat ≤ 90)) ∧
      ∀ c, frag.getLast? = some c → ¬(c = '.' ∨ c = '!' ∨ c = '?' ∨ c = '…') := by
  obtain ⟨hs, hlen, hst, hc1, hc2⟩ := hwf
  obtain ⟨starter, hpick, hmem⟩ := pick_weighted_mem m.sw adjust r0 hs hlen
  obtain ⟨hstne, hstw⟩ := hst starter hmem
  obtain ⟨out, hext, hone, hout⟩ :=
    extendLoop_total m adjust rs (targetLen - starter.length) 0 starter hstne
  have hq : ∀ w ∈ out, w ≠ [] ∧ (∀ c ∈ w, pyWS c = false) ∧ rstripPunct w = w := by
    intro w hw
    rcases hout w hw with hin | ⟨nw, rfl, hne2, hopt⟩
    · exact hstw w hin
    · refine ⟨hne2, ?_, rstripPunct_idem nw⟩
      intro c hc
      have hcn : c ∈ nw := rstripPunct_chars hc
      rcases hopt with ⟨kv, hkv, q, hq'⟩ | ⟨kv, hkv, q, hq'⟩
      · exact hc1 kv hkv (nw, q) hq' c hcn
      · exact hc2 kv hkv (nw, q) hq' c hcn
  obtain ⟨w1, rest, htk⟩ : ∃ w1 rest, out.take targetLen = w1 :: rest := by
    cases ht : out.take targetLen with
    | nil =>
      exfalso
      cases out with
      | nil => exact hone rfl
      | cons o os =>
        cases targetLen with
        | zero => omega
        | succ n => simp at ht
    | cons a b => exact ⟨a, b, rfl⟩
  have hsplit0 : pySplit ((joinSpace (out.take targetLen)).map Char.toLower) =
      (out.take targetLen).map (fun w => w.map Char.toLower) := by
    rw [joinSpace_map_toLower]
    apply pySplit_joinSpace
    intro w hw
    obtain ⟨w0, hw0, rfl⟩ := List.mem_map.mp hw
    obtain ⟨h1, h2, _⟩ := hq w0 (mem_take hw0)
    refine ⟨by simpa using h1, ?_⟩
    intro c hc
    obtain ⟨c0, hc0, rfl⟩ := List.mem_map.mp hc
    rw [pyWS_toLower]
    exact h2 c0 hc0
  refine ⟨_fix_contractions ((joinSpace (out.take targetLen)).map Char.toLower),
    ?_, ?_, ?_, ?_, ?_⟩
  · unfold generate_fragment
    rw [hpick]
    show (match extendLoop m adjust rs (targetLen - starter.length) 0 starter with
      | none => none
      | some words => some (_fix_contractions
          ((joinSpace (words.take targetLen)).map Char.toLower))) =
      some (_fix_contractions ((joinSpace (out.take targetLen)).map Char.toLower))
    rw [hext]
  · rw [pySplit_length_cw]
    apply cwAux_pos
    apply fixContractions_nonws
    obtain ⟨h1ne, h1w, _⟩ := hq w1 (mem_take (htk ▸ List.mem_cons_self w1 rest))
    obtain ⟨c1, hc1⟩ : ∃ c1, c1 ∈ w1 := by
      cases w1 with
      | nil => exact absurd rfl h1ne
      | cons c cs => exact ⟨c, by simp⟩
    refine ⟨Char.toLower c1, ?_, by rw [pyWS_toLower]; exact h1w c1 hc1⟩
    exact List.mem_map_of_mem _
      (mem_joinSpace_of_mem (htk ▸ List.mem_cons_self w1 rest) hc1)
  · have hub := fixContractions_count ((joinSpace (out.take targetLen)).map Char.toLower)
    rw [hsplit0] at hub
    have h2 : ((out.take targetLen).map (fun w => w.map Char.toLower)).length ≤
        targetLen := by
      rw [List.length_map]
      simp [List.length_take]
    omega
  · intro b hb
    obtain ⟨a, ha, hrel⟩ := forall₂_mem_right
      (fixContractions_rel ((joinSpace (out.take targetLen)).map Char.toLower)) hb
    obtain ⟨a0, _, rfl⟩ := List.mem_map.mp ha
    rcases hrel with rfl | hb2 | ⟨_, rfl⟩
    · exact toLower_not_upper a0
    · rw [hb2]
      exact toLower_not_upper _
    · decide
  · intro c hc hpun
    obtain ⟨wl, hwl⟩ : ∃ wl, (out.take targetLen).getLast? = some wl := by
      rw [htk]
      cases hgl : (w1 :: rest).getLast? with
      | none => exact absurd (List.getLast?_eq_none_iff.mp hgl) (by simp)
      | some x => exact ⟨x, rfl⟩
    obtain ⟨hlne, hlw, hlfix⟩ := hq wl (mem_take (mem_of_getLast?_eq hwl))
    obtain ⟨cl, hcl⟩ : ∃ cl, wl.getLast? = some cl := by
      cases hgl : wl.getLast? with
      | none => exact absurd (List.getLast?_eq_none_iff.mp hgl) hlne
      | some x => exact ⟨x, rfl⟩
    have hclw : pyWS cl = false := hlw cl (mem_of_getLast?_eq hcl)
    have hs0l : ((joinSpace (out.take targetLen)).map Char.toLower).getLast? =
        some (Char.toLower cl) := by
      rw [getLast?_map, joinSpace_getLast hwl hlne, hcl]
      rfl
    obtain ⟨b, hbl, hbrel⟩ := forall₂_getLast
      (fixContractions_rel ((joinSpace (out.take targetLen)).map Char.toLower)) hs0l
    have hbc : b = c := by
      rw [hc] at hbl
      cases hbl
      rfl
    subst hbc
    have hcl_eq : Char.toLower cl = b := by
      rcases hbrel with rfl | hb2 | ⟨hsp, _⟩
      · rfl
      · rw [hb2, toLower_idem]
      · exfalso
        have : pyWS (Char.toLower cl) = false := by
          rw [pyWS_toLower]
          exact hclw
        rw [hsp] at this
        exact absurd this (by decide)
    have hclc : cl = b := by
      rcases hpun with rfl | rfl | rfl | rfl
      · exact toLower_fix (by decide) hcl_eq
      · exact toLower_fix (by decide) hcl_eq
      · exact toLower_fix (by decide) hcl_eq
      · exact toLower_fix (by decide) hcl_eq
    exact rstripPunct_getLast hlfix hcl (hclc ▸ hpun)

/-- Witness for the amended C8 on a two-word wellformed model. -/
theorem C8_fragment_shape_amended_witness :
    WfModel wModelW ∧ 1 ≤ 2 ∧
      ∃ frag, generate_fragment wModelW id 2 0 (fun _ => 0) = some frag ∧
        1 ≤ (pySplit frag).length ∧ (pySplit frag).length ≤ 2 ∧
        (∀ c ∈ frag, ¬(65 ≤ c.toNat ∧ c.toNat ≤ 90)) ∧
        ∀ c, frag.getLast? = some c → ¬(c = '.' ∨ c = '!' ∨ c = '?' ∨ c = '…') :=
  ⟨by unfold WfModel wModelW; decide, by decide,
    C8_fragment_shape_amended wModelW id 2 0 (fun _ => 0)
      (by unfold WfModel wModelW; decide) (by decide)⟩

/-- Counterexample to claim C10: fragment generation is not total for every
loaded model — a model whose only starter pair is the empty list reaches
`words[-1]` with `words` empty (an `IndexError`, embedded as `none`), and a
model with no starters at all fails in `_pick_weighted` on `items[-1]`. -/
theorem C10_generation_counterexample :
    generate_fragment wModelE id 2 0 (fun _ => 0) = none ∧
      generate_fragment wModelN id 2 0 (fun _ => 0) = none := by
  constructor
  · have h1 : _pick_weighted wModelE.s wModelE.sw id 0 = some [] := by
      norm_num [wModelE, _pick_weighted, wheelIdx]
    unfold generate_fragment
    rw [h1]
    rfl
  · rfl

/-- Amended C10: the option sampler returns `None` on an empty candidate
list (so an empty chain-table entry stops extension instead of raising),
and generation as a whole is total once the model has at least one starter
pair, a weight per starter, and no empty starter pair. -/
theorem C10_empty_options_amended (m : MarkovModel) (adjust : ℚ → ℚ)
    (targetLen : ℕ) (r0 : ℚ) (rs : ℕ → ℚ)
    (hs : m.s ≠ []) (hlen : m.sw.length = m.s.length)
    (hne : ∀ st ∈ m.s, st ≠ []) :
    (∀ (adj : ℚ → ℚ) (r : ℚ), _pick_from_options [] adj r = none) ∧
      ∃ frag, generate_fragment m adjust targetLen r0 rs = some frag := by
  refine ⟨fun adj r => rfl, ?_⟩
  obtain ⟨starter, hpick, hmem⟩ := pick_weighted_mem m.sw adjust r0 hs hlen
  obtain ⟨out, hext, _, _⟩ :=
    extendLoop_total m adjust rs (targetLen - starter.length) 0 starter (hne starter hmem)
  refine ⟨_fix_contractions ((joinSpace (out.take targetLen)).map Char.toLower), ?_⟩
  unfold generate_fragment
  rw [hpick]
  show (match extendLoop m adjust rs (targetLen - starter.length) 0 starter with
    | none => none
    | some words => some (_fix_contractions
        ((joinSpace (words.take targetLen)).map Char.toLower))) =
    some (_fix_contractions ((joinSpace (out.take targetLen)).map Char.toLower))
  rw [hext]

/-- Witness for the amended C10 on the two-word wellformed model. -/
theorem C10_empty_options_amended_witness :
    (wModelW.s ≠ [] ∧ wModelW.sw.length = wModelW.s.length ∧
        ∀ st ∈ wModelW.s, st ≠ []) ∧
      ((∀ (adj : ℚ → ℚ) (r : ℚ), _pick_from_options [] adj r = none) ∧
        ∃ frag, generate_fragment wModelW id 2 0 (fun _ => 0) = some frag) :=
  ⟨⟨by decide, by decide, by decide⟩,
    C10_empty_options_amended wModelW id 2 0 (fun _ => 0)
      (by decide) (by decide) (by decide)⟩

/-- Scan predicate: the rewrite `\b<p1> <p2>\b` finds no match anywhere in
`s`, starting with word-boundary state `prev` (mirrors the positions
`subFix` would try). -/
def noMatchAux (p1 p2 : List Char) (prev : Bool) : List Char → Bool
  | [] => true
  | c :: cs =>
    if prev then noMatchAux p1 p2 (wordChar c) cs
    else
      match tryMatch p1 p2 (c :: cs) with
      | some _ => false
      | none => noMatchAux p1 p2 (wordChar c) cs

theorem subFix_of_noMatch {p1 p2 : List Char} :
    ∀ (prev : Bool) (s : List Char), noMatchAux p1 p2 prev s = true →
      subFix p1 p2 prev s = s := by
  intro prev s
  induction s generalizing prev with
  | nil =>
    intro _
    exact subFix_nil p1 p2 prev
  | cons c cs ih =>
    intro h
    cases prev with
    | true =>
      rw [subFix_prev]
      have h' : noMatchAux p1 p2 (wordChar c) cs = true := by
        simpa [noMatchAux] using h
      rw [ih (wordChar c) h']
    | false =>
      cases hm : tryMatch p1 p2 (c :: cs) with
      | some rest =>
        exfalso
        simp only [noMatchAux, if_neg (by simp : ¬(false = true)), hm] at h
        cases h
      | none =>
        rw [subFix_miss hm]
        have h' : noMatchAux p1 p2 (wordChar c) cs = true := by
          simpa [noMatchAux, hm] using h
        rw [ih (wordChar c) h']

theorem charRel_wordChar {a b : Char} (h : charRel a b) : wordChar b = wordChar a := by
  rcases h with rfl | hb | ⟨rfl, rfl⟩
  · rfl
  · rw [hb, wordChar_toLower]
  · decide

theorem stripCI_transfer {p s t t1 : List Char}
    (hp : ∀ c ∈ p, 97 ≤ c.toNat ∧ c.toNat ≤ 122)
    (hrel : List.Forall₂ charRel s t) (h : stripCI p t = some t1) :
    ∃ s1, stripCI p s = some s1 ∧ List.Forall₂ charRel s1 t1 := by
  induction p generalizing s t with
  | nil =>
    cases h
    exact ⟨s, rfl, hrel⟩
  | cons x ps ih =>
    cases hrel with
    | nil => cases h
    | cons hcd hrest =>
      rename_i c cs d ds
      simp only [stripCI] at h
      split at h
      · rename_i hdx
        obtain ⟨s1, hs1, hrel1⟩ :=
          ih (fun y hy => hp y (List.mem_cons_of_mem _ hy)) hrest h
        refine ⟨s1, ?_, hrel1⟩
        have hcx : c.toLower = x := by
          rcases hcd with rfl | hdl | ⟨rfl, rfl⟩
          · exact hdx
          · rw [hdl, toLower_idem] at hdx
            exact hdx
          · exfalso
            have hx := hp x (by simp)
            have : ('\'' : Char).toLower = x := hdx
            have h39 : ('\'' : Char).toLower = '\'' := by decide
            rw [h39] at this
            rw [← this] at hx
            exact absurd hx (by decide)
        simp only [stripCI]
        rw [if_pos hcx]
        exact hs1
      · cases h

theorem tryMatch_boundary {p1 p2 s rest : List Char}
    (h : tryMatch p1 p2 s = some rest) :
    rest = [] ∨ ∃ c cs, rest = c :: cs ∧ wordChar c = false := by
  unfold tryMatch at h
  split at h
  · cases h
  · rename_i s1 h1
    split at h
    · rename_i s2
      split at h
      · cases h
      · rename_i r2 h2
        split at h
        · cases h
          exact Or.inl rfl
        · rename_i c cs
          split at h
          · cases h
          · rename_i hwc
            cases h
            exact Or.inr ⟨c, cs, rfl, by simpa using hwc⟩
    · cases h

theorem tryMatch_transfer {p1 p2 s t trest : List Char}
    (h1 : ∀ c ∈ p1, 97 ≤ c.toNat ∧ c.toNat ≤ 122)
    (h2 : ∀ c ∈ p2, 97 ≤ c.toNat ∧ c.toNat ≤ 122)
    (hrel : List.Forall₂ charRel s t) (h : tryMatch p1 p2 t = some trest) :
    ∃ srest, tryMatch p1 p2 s = some srest := by
  unfold tryMatch at h ⊢
  split at h
  · cases h
  · rename_i t1 ht1
    obtain ⟨s1, hs1, hrel1⟩ := stripCI_transfer h1 hrel ht1
    rw [hs1]
    split at h
    · rename_i t2
      cases hrel1 with
      | cons hcd hrest2 =>
        rename_i e s2
        have he : e = ' ' := by
          rcases hcd with h' | h' | ⟨h', h''⟩
          · exact h'.symm
          · exact toLower_fix (by decide) h'.symm
          · exact absurd h'' (by decide)
        subst he
        show ∃ srest, (match stripCI p2 s2 with
          | none => none
          | some rest =>
            match rest with
            | [] => some []
            | c :: _ => if wordChar c = true then none else some rest) = some srest
        split at h
        · cases h
        · rename_i rt hrt
          obtain ⟨rs, hrs, hrel3⟩ :=
            stripCI_transfer h2 hrest2 hrt
          rw [hrs]
          split at h
          · cases h
            cases hrel3 with
            | nil => exact ⟨[], rfl⟩
          · rename_i c cs2
            split at h
            · cases h
            · rename_i hwc
              cases h
              cases hrel3 with
              | cons hcd2 hrest3 =>
                rename_i e2 s3
                have hw2 : wordChar e2 = false := by
                  rw [← charRel_wordChar hcd2]
                  simpa using hwc
                refine ⟨e2 :: s3, ?_⟩
                show (if wordChar e2 = true then none else some (e2 :: s3)) =
                  some (e2 :: s3)
                rw [if_neg (by simp [hw2])]
    · cases h

theorem noMatchAux_transfer {p1 p2 : List Char}
    (h1 : ∀ c ∈ p1, 97 ≤ c.toNat ∧ c.toNat ≤ 122)
    (h2 : ∀ c ∈ p2, 97 ≤ c.toNat ∧ c.toNat ≤ 122)
    {s t : List Char} (hrel : List.Forall₂ charRel s t) :
    ∀ prev, noMatchAux p1 p2 prev s = true → noMatchAux p1 p2 prev t = true := by
  induction hrel with
  | nil =>
    intro prev _
    rfl
  | cons hcd hrest ih =>
    rename_i c d cs ds
    intro prev h
    cases prev with
    | true =>
      show noMatchAux p1 p2 (wordChar d) ds = true
      rw [charRel_wordChar hcd]
      exact ih (wordChar c) (by simpa [noMatchAux] using h)
    | false =>
      cases hmt : tryMatch p1 p2 (d :: ds) with
      | some rest =>
        exfalso
        obtain ⟨srest, hsm⟩ := tryMatch_transfer h1 h2
          (List.Forall₂.cons hcd hrest) hmt
        simp only [noMatchAux, if_neg (by simp : ¬(false = true)), hsm] at h
        cases h
      | none =>
        have hs : noMatchAux p1 p2 (wordChar c) cs = true := by
          cases hms : tryMatch p1 p2 (c :: cs) with
          | some r =>
            exfalso
            simp only [noMatchAux, if_neg (by simp : ¬(false = true)), hms] at h
            cases h
          | none =>
            simpa [noMatchAux, hms] using h
        have ht := ih (wordChar c) hs
        simp only [noMatchAux, if_neg (by simp : ¬(false = true)), hmt]
        rw [charRel_wordChar hcd]
        exact ht

theorem stripCI_self {p : List Char}
    (hp : ∀ c ∈ p, 97 ≤ c.toNat ∧ c.toNat ≤ 122) (r : List Char) :
    stripCI p (p ++ r) = some r := by
  induction p with
  | nil => rfl
  | cons x xs ih =>
    have hx := hp x (by simp)
    have hfix : x.toLower = x := by
      rcases toLower_spec x with ⟨_, he⟩ | ⟨ha, hb, _⟩
      · exact he
      · omega
    simp only [List.cons_append, stripCI]
    rw [if_pos hfix]
    exact ih (fun y hy => hp y (List.mem_cons_of_mem _ hy))

theorem wordChar_of_toLower_letter {c x : Char}
    (hx : 97 ≤ x.toNat ∧ x.toNat ≤ 122) (h : c.toLower = x) :
    wordChar c = true := by
  rw [← wordChar_toLower, h]
  simp [wordChar, isAlpha_of_lower hx.1 hx.2]

/-- No match can start at the replacement itself: after emitting
`p1 ++ ' :: p2`, trying the pattern at the head fails on the apostrophe
where the pattern requires the space. -/
theorem tryMatch_at_replacement {p1 p2 : List Char}
    (hp1 : ∀ c ∈ p1, 97 ≤ c.toNat ∧ c.toNat ≤ 122) (X : List Char) :
    tryMatch p1 p2 (p1 ++ '\'' :: X) = none := by
  unfold tryMatch
  rw [stripCI_self hp1]
  rfl

/-- No match can start at the second replacement word: `p2` is followed by
a word boundary and `p1 ≠ p2` (both lowercase letter words), so
`\b<p1> <p2>\b` cannot match at `p2 ++ O`. -/
theorem tryMatch_at_second {p1 p2 O : List Char}
    (hp1 : ∀ c ∈ p1, 97 ≤ c.toNat ∧ c.toNat ≤ 122)
    (hp2 : ∀ c ∈ p2, 97 ≤ c.toNat ∧ c.toNat ≤ 122)
    (hne : p1 ≠ p2)
    (hO : O = [] ∨ ∃ c cs, O = c :: cs ∧ wordChar c = false) :
    tryMatch p1 p2 (p2 ++ O) = none := by
  have key : ∀ (a b : List Char), (∀ c ∈ a, 97 ≤ c.toNat ∧ c.toNat ≤ 122) →
      (∀ c ∈ b, 97 ≤ c.toNat ∧ c.toNat ≤ 122) → a ≠ b →
      stripCI a (b ++ O) = none ∨
        ∃ s1, stripCI a (b ++ O) = some s1 ∧ ∀ s2, s1 ≠ ' ' :: s2 := by
    intro a
    induction a with
    | nil =>
      intro b _ hB hab
      right
      refine ⟨b ++ O, rfl, ?_⟩
      intro s2 hcon
      cases b with
      | nil => exact hab rfl
      | cons y ys =>
        have hy := hB y (by simp)
        have hysp : y = ' ' := by
          have := congrArg List.head? hcon
          simpa using this
        rw [hysp] at hy
        exact absurd hy (by decide)
    | cons x xs ih =>
      intro b hA hB hab
      cases b with
      | nil =>
        left
        rcases hO with rfl | ⟨c, cs, rfl, hwc⟩
        · rfl
        · have hnc : ¬(c.toLower = x) := by
            intro hcl
            have hw := wordChar_of_toLower_letter (hA x (by simp)) hcl
            rw [hw] at hwc
            cases hwc
          show stripCI (x :: xs) (c :: cs) = none
          simp only [stripCI]
          rw [if_neg hnc]
      | cons y ys =>
        have hy := hB y (by simp)
        have hyfix : y.toLower = y := by
          rcases toLower_spec y with ⟨_, he⟩ | ⟨ha', hb', _⟩
          · exact he
          · omega
        by_cases hxy : y.toLower = x
        · have hyx : y = x := by rw [← hyfix, hxy]
          subst hyx
          have hne2 : xs ≠ ys := by
            intro he
            exact hab (by rw [he])
          rcases ih ys (fun c hc => hA c (List.mem_cons_of_mem _ hc))
            (fun c hc => hB c (List.mem_cons_of_mem _ hc)) hne2 with
            hn | ⟨s1, hs1, hs2⟩
          · left
            show stripCI (y :: xs) (y :: (ys ++ O)) = none
            simp only [stripCI]
            rw [if_pos hyfix]
            exact hn
          · right
            refine ⟨s1, ?_, hs2⟩
            show stripCI (y :: xs) (y :: (ys ++ O)) = some s1
            simp only [stripCI]
            rw [if_pos hyfix]
            exact hs1
        · left
          show stripCI (x :: xs) (y :: (ys ++ O)) = none
          simp only [stripCI]
          rw [if_neg hxy]
  unfold tryMatch
  rcases key p1 p2 hp1 hp2 hne with hn | ⟨s1, hs1, hs2⟩
  · rw [hn]
  · rw [hs1]
    show (match s1 with
      | ' ' :: s2 =>
        match stripCI p2 s2 with
        | none => none
        | some rest =>
          match rest with
          | [] => some []
          | c :: _ => if wordChar c = true then none else some rest
      | _ => none) = none
    split
    · rename_i s2
      exact absurd rfl (hs2 s2)
    · rfl

theorem noMatchAux_wordSkip {p1 p2 : List Char} :
    ∀ (w : List Char), w ≠ [] → (∀ c ∈ w, wordChar c = true) →
    ∀ (r : List Char), noMatchAux p1 p2 true r = true →
    ∀ prev, (prev = false → tryMatch p1 p2 (w ++ r) = none) →
    noMatchAux p1 p2 prev (w ++ r) = true := by
  intro w
  induction w with
  | nil =>
    intro h
    exact absurd rfl h
  | cons c cs ih =>
    intro _ hw r hr prev hpm
    have hwc : wordChar c = true := hw c (by simp)
    have htail : noMatchAux p1 p2 true (cs ++ r) = true := by
      cases cs with
      | nil => simpa using hr
      | cons c2 cs2 =>
        exact ih (by simp) (fun x hx => hw x (List.mem_cons_of_mem _ hx)) r hr true
          (fun h => by cases h)
    cases prev with
    | true =>
      show noMatchAux p1 p2 (wordChar c) (cs ++ r) = true
      rw [hwc]
      exact htail
    | false =>
      have hm := hpm rfl
      rw [List.cons_append] at hm
      show (match tryMatch p1 p2 (c :: (cs ++ r)) with
        | some _ => false
        | none => noMatchAux p1 p2 (wordChar c) (cs ++ r)) = true
      rw [hm]
      show noMatchAux p1 p2 (wordChar c) (cs ++ r) = true
      rw [hwc]
      exact htail

/-- After one full left-to-right rewrite pass of a wellformed table row,
the row finds no further match in its own output. -/
theorem noMatch_after_subFix {p1 p2 : List Char}
    (hp1 : ∀ c ∈ p1, 97 ≤ c.toNat ∧ c.toNat ≤ 122)
    (hp2 : ∀ c ∈ p2, 97 ≤ c.toNat ∧ c.toNat ≤ 122)
    (hne1 : p1 ≠ []) (hne2 : p2 ≠ []) (hnep : p1 ≠ p2) :
    ∀ (prev : Bool) (s : List Char),
      noMatchAux p1 p2 prev (subFix p1 p2 prev s) = true := by
  have hletters1 : ∀ c ∈ p1, wordChar c = true := by
    intro x hx
    have h := hp1 x hx
    refine wordChar_of_toLower_letter h ?_
    rcases toLower_spec x with ⟨_, he⟩ | ⟨ha', hb', _⟩
    · exact he
    · omega
  have hletters2 : ∀ c ∈ p2, wordChar c = true := by
    intro x hx
    have h := hp2 x hx
    refine wordChar_of_toLower_letter h ?_
    rcases toLower_spec x with ⟨_, he⟩ | ⟨ha', hb', _⟩
    · exact he
    · omega
  intro prev s
  induction prev, s using subFix.induct p1 p2 with
  | case1 prev =>
    rw [subFix_nil]
    rfl
  | case2 c cs ih =>
    rw [subFix_prev]
    show noMatchAux p1 p2 (wordChar c) (subFix p1 p2 (wordChar c) cs) = true
    exact ih
  | case3 prev c cs hprev rest hm ih =>
    have hp : prev = false := by simpa using hprev
    subst hp
    rw [subFix_hit hm]
    have hOb : subFix p1 p2 true rest = [] ∨
        ∃ d ds, subFix p1 p2 true rest = d :: ds ∧ wordChar d = false := by
      rcases tryMatch_boundary hm with rfl | ⟨d, ds, rfl, hwd⟩
      · exact Or.inl (by rw [subFix_nil])
      · exact Or.inr ⟨d, _, subFix_prev p1 p2 d ds, hwd⟩
    have hinner : noMatchAux p1 p2 true
        ('\'' :: (p2 ++ subFix p1 p2 true rest)) = true := by
      show noMatchAux p1 p2 (wordChar '\'')
        (p2 ++ subFix p1 p2 true rest) = true
      have hwq : wordChar '\'' = false := by decide
      rw [hwq]
      apply noMatchAux_wordSkip p2 hne2 hletters2 _ ih false
      intro _
      exact tryMatch_at_second hp1 hp2 hnep hOb
    have hre : p1 ++ '\'' :: p2 ++ subFix p1 p2 true rest =
        p1 ++ ('\'' :: (p2 ++ subFix p1 p2 true rest)) := by simp
    rw [hre]
    apply noMatchAux_wordSkip p1 hne1 hletters1 _ hinner false
    intro _
    exact tryMatch_at_replacement hp1 _
  | case4 prev c cs hprev hm ih =>
    have hp : prev = false := by simpa using hprev
    subst hp
    rw [subFix_miss hm]
    have hnone : tryMatch p1 p2 (c :: subFix p1 p2 (wordChar c) cs) = none := by
      cases hmt : tryMatch p1 p2 (c :: subFix p1 p2 (wordChar c) cs) with
      | none => rfl
      | some r =>
        exfalso
        obtain ⟨sr, hsr⟩ := tryMatch_transfer hp1 hp2
          (List.Forall₂.cons (charRel_refl c) (subFix_rel p1 p2 (wordChar c) cs)) hmt
        rw [hm] at hsr
        cases hsr
    show (match tryMatch p1 p2 (c :: subFix p1 p2 (wordChar c) cs) with
      | some _ => false
      | none => noMatchAux p1 p2 (wordChar c) (subFix p1 p2 (wordChar c) cs)) = true
    rw [hnone]
    show noMatchAux p1 p2 (wordChar c) (subFix p1 p2 (wordChar c) cs) = true
    exact ih

/-- Each row of the contraction table is a pair of distinct nonempty
lowercase letter words. -/
def RowGood (f : List Char × List Char) : Prop :=
  f.1 ≠ [] ∧ f.2 ≠ [] ∧ (∀ c ∈ f.1, 97 ≤ c.toNat ∧ c.toNat ≤ 122) ∧
    (∀ c ∈ f.2, 97 ≤ c.toNat ∧ c.toNat ≤ 122) ∧ f.1 ≠ f.2

theorem fixes_rowGood : ∀ f ∈ FIXES, RowGood f := by
  unfold FIXES RowGood
  decide

theorem noMatch_foldl {f : List Char × List Char} (hf : RowGood f) :
    ∀ (fs : List (List Char × List Char)),
    ∀ (x : List Char), noMatchAux f.1 f.2 false x = true →
      noMatchAux f.1 f.2 false
        (fs.foldl (fun t g => subFix g.1 g.2 false t) x) = true := by
  intro fs
  induction fs with
  | nil =>
    intro x hx
    exact hx
  | cons g gs ih =>
    intro x hx
    simp only [List.foldl_cons]
    apply ih
    exact noMatchAux_transfer hf.2.2.1 hf.2.2.2.1 (subFix_rel g.1 g.2 false x) false hx

theorem fixContractions_noMatch (s : List Char) :
    ∀ f ∈ FIXES, noMatchAux f.1 f.2 false (_fix_contractions s) = true := by
  unfold _fix_contractions
  have hg := fixes_rowGood
  revert hg
  generalize FIXES = fs
  intro hg
  induction fs generalizing s with
  | nil =>
    intro f hf
    cases hf
  | cons g gs ih =>
    intro f hf
    simp only [List.foldl_cons]
    rcases List.mem_cons.mp hf with rfl | hf'
    · obtain ⟨g1, g2, g3, g4, g5⟩ := hg f (by simp)
      apply noMatch_foldl (hg f (by simp)) gs
      exact noMatch_after_subFix g3 g4 g1 g2 g5 false s
    · exact ih (subFix g.1 g.2 false s)
        (fun g' hg' => hg g' (List.mem_cons_of_mem _ hg')) f hf'

theorem foldl_id_of_noMatch :
    ∀ (fs : List (List Char × List Char)) (x : List Char),
      (∀ f ∈ fs, noMatchAux f.1 f.2 false x = true) →
      fs.foldl (fun t f => subFix f.1 f.2 false t) x = x := by
  intro fs
  induction fs with
  | nil =>
    intro x _
    rfl
  | cons g gs ih =>
    intro x hx
    simp only [List.foldl_cons]
    rw [subFix_of_noMatch false x (hx g (by simp))]
    exact ih x (fun f hf => hx f (List.mem_cons_of_mem _ hf))

/-- Claim C9: contraction repair is idempotent — applying the fixed
ordered table of case-insensitive word-boundary rewrites twice yields the
same result as applying it once, for every input; and `"i m happy"` maps
to `"i'm happy"`. -/
theorem C9_contraction_repair_idempotent (s : List Char) :
    _fix_contractions (_fix_contractions s) = _fix_contractions s ∧
      _fix_contractions "i m happy".data = "i'm happy".data := by
  constructor
  · have h := fixContractions_noMatch s
    show FIXES.foldl (fun t f => subFix f.1 f.2 false t) (_fix_contractions s) =
      _fix_contractions s
    exact foldl_id_of_noMatch FIXES (_fix_contractions s) h
  · rw [← fixContractions_eq_fuel 16 _ (by decide)]
    decide
